import Mathlib

/-!
Expression parser of `pkg/expr/parser.go`

A shallow embedding of the Go recursive-descent parser: the `node` tree, the
`parser` state record, and every method of `parser` as an explicit
state-passing function whose result is either a Go panic (`Failure`) or the
returned value together with the state after the call.
-/

namespace Expr

/-- Go `type lexeme string`. -/
abbrev lexeme := String

/-- Constant `add` of the source. -/
def add : lexeme := "+"
/-- Constant `subtract` of the source. -/
def subtract : lexeme := "-"
/-- Constant `multiply` of the source. -/
def multiply : lexeme := "*"
/-- Constant `openBracket` of the source. -/
def openBracket : lexeme := "("
/-- Constant `closeBracket` of the source. -/
def closeBracket : lexeme := ")"
/-- Constant `eof` of the source: the end-of-input sentinel is the lexeme `"."`. -/
def eof : lexeme := "."

/-- A value of Go type `*node`: either the nil pointer, or a pointer to a
`node` struct with its `lexeme` and its `children []*node`. -/
inductive node where
  | nil : node
  | mk (lexeme : lexeme) (children : List node) : node

/-- The ways a call can abort: the four explicit `panic` calls of the source,
the two run-time panics of Go that the operations used can raise, and the
exhaustion of the loop budget of the model (which is not a Go panic). -/
inductive Failure where
  /-- `panic("digit expected")` in `getNum`. -/
  | digitExpected : Failure
  /-- `panic(fmt.Sprintf("%s expected but found %s", m, p.peek()))` in `match`. -/
  | expectedButFound (m found : lexeme) : Failure
  /-- `panic(fmt.Sprintf("+ or - expected, found %s", p.peek()))` in `expression`. -/
  | plusOrMinusExpected (found : lexeme) : Failure
  /-- `panic("parser stack underflow")` in `pop`. -/
  | stackUnderflow : Failure
  /-- Go run-time panic: index out of range. -/
  | indexOutOfRange : Failure
  /-- Go run-time panic: nil pointer dereference. -/
  | nilDereference : Failure
  /-- The budget of the model (of a loop or of a recursion) ran out. -/
  | outOfFuel : Failure
deriving DecidableEq

/-- Go `struct parser`. -/
structure parser where
  input : List lexeme
  pos : Int
  stack : List node
  tree : node
  savedTree : node

/-- Go `newParser`: the zero value for `pos`, `tree`, `savedTree`, and an empty stack. -/
def newParser (input : List lexeme) : parser :=
  ⟨input, 0, [], node.nil, node.nil⟩

/-- Go slice indexing `xs[i]` with an `int` index. -/
def index (xs : List lexeme) (i : Int) : Except Failure lexeme :=
  if i < 0 then .error .indexOutOfRange
  else match xs[i.toNat]? with
    | some x => .ok x
    | none => .error .indexOutOfRange

/-- Go `parser.push`. -/
def parser.push (p : parser) (n : node) : parser :=
  { p with stack := p.stack ++ [n] }

/-- Go `parser.pop`. -/
def parser.pop (p : parser) : Except Failure (node × parser) :=
  match p.stack.getLast? with
  | none => .error .stackUnderflow
  | some element => .ok (element, { p with stack := p.stack.dropLast })

/-- Go `parser.emptyStack`. -/
def parser.emptyStack (p : parser) : Bool :=
  p.stack.length == 0

/-- Go `parser.nextLexeme`. -/
def parser.nextLexeme (p : parser) : Except Failure (lexeme × parser) :=
  if p.pos ≥ (p.input.length : Int) then .ok (eof, p)
  else do
    let next ← index p.input p.pos
    .ok (next, { p with pos := p.pos + 1 })

/-- Go `parser.peek`. -/
def parser.peek (p : parser) : Except Failure (lexeme × parser) :=
  if p.pos ≥ (p.input.length : Int) then .ok (eof, p)
  else do
    let x ← index p.input p.pos
    .ok (x, p)

/-- The condition of the `if` in `getNum`: one of the ten digit lexemes. -/
def isDigit (n : lexeme) : Prop :=
  n = "0" ∨ n = "1" ∨ n = "2" ∨ n = "3" ∨ n = "4" ∨ n = "5" ∨
    n = "6" ∨ n = "7" ∨ n = "8" ∨ n = "9"

instance (n : lexeme) : Decidable (isDigit n) := by
  unfold isDigit; infer_instance

/-- Go `parser.getNum`. -/
def parser.getNum (p : parser) : Except Failure (node × parser) := do
  let (n, p) ← p.peek
  if isDigit n then
    let (_, p) ← p.nextLexeme
    .ok (node.mk n [], p)
  else .error .digitExpected

/-- Go `parser.match`. -/
def parser.match_ (p : parser) (m : lexeme) : Except Failure parser := do
  let (x, p) ← p.peek
  if x = m then
    let (_, p) ← p.nextLexeme
    .ok p
  else
    let (found, _) ← p.peek
    .error (.expectedButFound m found)

/-- Go `parser.term`. -/
def parser.term (p : parser) : Except Failure parser := do
  let (n, p) ← p.getNum
  .ok { p with tree := n }

/-- Go `parser.add` (the method; the constant is `Expr.add`). -/
def parser.add (p : parser) : Except Failure parser := do
  let p ← p.match_ Expr.add
  let p ← p.term
  .ok { p with tree := node.mk Expr.add [p.savedTree, p.tree] }

/-- Go `parser.subtract`. -/
def parser.subtract (p : parser) : Except Failure parser := do
  let p ← p.match_ Expr.subtract
  let p ← p.term
  .ok { p with tree := node.mk Expr.subtract [p.savedTree, p.tree] }

/-- The condition of the `for` in `expression`:
`p.peek() == "+" || p.peek() == "-"`, with Go's short-circuit evaluation. -/
def parser.loopCond (p : parser) : Except Failure (Bool × parser) := do
  let (a, p) ← p.peek
  if a = "+" then .ok (true, p)
  else
    let (b, p) ← p.peek
    .ok (decide (b = "-"), p)

/-- The `for` loop of `expression`; `fuel` bounds the number of times the
condition is evaluated. -/
def parser.expressionLoop : Nat → parser → Except Failure parser
  | 0, _ => .error .outOfFuel
  | fuel + 1, p => do
    let (c, p) ← p.loopCond
    if c then
      let p := { p with savedTree := p.tree }
      let (s, p) ← p.peek
      let p ←
        if s = Expr.add then p.add
        else if s = Expr.subtract then p.subtract
        else do
          let (found, _) ← p.peek
          .error (.plusOrMinusExpected found)
      parser.expressionLoop fuel p
    else .ok p

/-- Go `parser.expression`. Every completed iteration of the loop consumes two
lexemes, so `len(input) + 1` evaluations of the condition always suffice. -/
def parser.expression (p : parser) : Except Failure parser := do
  let p ← p.term
  p.expressionLoop (p.input.length + 1)

/-- Go `parser.parse`; the result is the returned `*node` and the final state. -/
def parser.parse (p : parser) : Except Failure (node × parser) := do
  let (x, p) ← p.peek
  if x = eof then .ok (node.nil, p)
  else
    let p ← p.expression
    .ok (p.tree, p)

/-- Go `newNode`. -/
def newNode (lexemes : List lexeme) : Except Failure node := do
  let (n, _) ← (newParser lexemes).parse
  .ok n

/-- Go `strings.Repeat(s, count)` for a non-negative `count`. -/
def stringsRepeat (s : String) : Nat → String
  | 0 => ""
  | n + 1 => s ++ stringsRepeat s n

mutual
/-- Go `node.indentedString`. The receiver is dereferenced (`n.lexeme`), which
panics on a nil pointer. `indent` starts at 0 in `String` and only grows. -/
def node.indentedString : node → Nat → Except Failure String
  | .nil, _ => .error .nilDereference
  | .mk s children, indent => do
    let c ← node.indentedChildren children indent ""
    .ok (stringsRepeat "    " indent ++ s ++ c)
/-- The `for _, child := range n.children` loop of `indentedString`, with the
accumulator `c`. -/
def node.indentedChildren : List node → Nat → String → Except Failure String
  | [], _, c => .ok c
  | child :: rest, indent, c => do
    let r ← child.indentedString (indent + 1)
    node.indentedChildren rest indent (c ++ "\n" ++ r)
end

/-- Go `node.String`. -/
def node.String (n : node) : Except Failure String := do
  let body ← n.indentedString 0
  .ok ("---\n" ++ body ++ "\n---\n")

/-- The lexemes `"+"` and `"-"`, the two operators the loop of `expression` accepts. -/
def isOp (o : lexeme) : Prop := o = "+" ∨ o = "-"

instance (o : lexeme) : Decidable (isOp o) := by
  unfold isOp; infer_instance

/-- The loop of `expression` read off the remaining input `rest` (the lexemes
from the cursor on): an operator followed by a digit extends the tree and
moves the cursor by two, an operator followed by anything else is the
`digit expected` panic, and anything else ends the loop. -/
def walk (p : parser) : List lexeme → Except Failure parser
  | [] => .ok p
  | [o] => if isOp o then .error .digitExpected else .ok p
  | o :: d :: rest =>
    if isOp o then
      if isDigit d then
        walk ⟨p.input, p.pos + 2, p.stack, node.mk o [p.tree, node.mk d []], p.tree⟩ rest
      else .error .digitExpected
    else .ok p

/-- The lexeme sequence `o1 d1 ... on dn` of a list of (operator, digit) pairs. -/
def opsDigits : List (lexeme × lexeme) → List lexeme
  | [] => []
  | od :: rest => od.1 :: od.2 :: opsDigits rest

/-- The left fold of the claim: starting from `t`, each pair `(o, d)` replaces
the tree `t` by `node(o, [t, leaf(d)])`. -/
def foldPairs (t : node) (pairs : List (lexeme × lexeme)) : node :=
  pairs.foldl (fun t od => node.mk od.1 [t, node.mk od.2 []]) t

/-- Every pair is an operator `"+"`/`"-"` followed by a digit lexeme. -/
def validPairs (pairs : List (lexeme × lexeme)) : Prop :=
  ∀ od ∈ pairs, isOp od.1 ∧ isDigit od.2

/-- The part `(('+' | '-') DIGIT)*` of the grammar of the specification. -/
def isExpressionTail : List lexeme → Bool
  | [] => true
  | [_] => false
  | o :: d :: rest => decide (isOp o) && decide (isDigit d) && isExpressionTail rest

/-- The grammar of the specification, `expression := DIGIT (('+' | '-') DIGIT)*`. -/
def isExpression : List lexeme → Bool
  | [] => false
  | d :: rest => decide (isDigit d) && isExpressionTail rest

mutual
/-- The arity invariant of the data model at every node of a tree: the
pointer is not nil, and the node is either labelled with a digit and has no
children, or labelled `"+"`/`"-"` and has exactly two children, and the same
holds for each child. -/
def node.arityOk : node → Bool
  | .nil => false
  | .mk l cs =>
    (decide (isDigit l ∧ cs.length = 0) || decide (isOp l ∧ cs.length = 2)) &&
      node.arityOkAll cs
/-- The arity invariant for every node of a list of trees. -/
def node.arityOkAll : List node → Bool
  | [] => true
  | c :: cs => c.arityOk && node.arityOkAll cs
end

/-- A digit is required at position `k` of `s` and is missing: `k` is even
and at most `len(s)`, the symbols at even positions below `k` are digits, the
symbols at odd positions below `k` are operators, and either `k` is the end of
`s` or the symbol at `k` is not a digit. -/
def missingDigit (s : List lexeme) (k : Nat) : Prop :=
  k % 2 = 0 ∧ k ≤ s.length ∧
  (∀ i, i < k → i % 2 = 0 → ∃ x, s[i]? = some x ∧ isDigit x) ∧
  (∀ i, i < k → i % 2 = 1 → ∃ x, s[i]? = some x ∧ isOp x) ∧
  (k = s.length ∨ ∃ x, s[k]? = some x ∧ ¬ isDigit x)

mutual
/-- No nil pointer occurs in the tree: the receiver is not nil and no child,
at any depth, is nil. -/
def node.noNil : node → Bool
  | .nil => false
  | .mk _ cs => node.noNilAll cs
/-- No nil pointer occurs in any tree of the list. -/
def node.noNilAll : List node → Bool
  | [] => true
  | c :: cs => c.noNil && node.noNilAll cs
end

mutual
/-- No label of the tree contains a newline. -/
def node.labelsNoNewline : node → Bool
  | .nil => true
  | .mk l cs => decide ('\n' ∉ l.data) && node.labelsNoNewlineAll cs
/-- No label of any tree of the list contains a newline. -/
def node.labelsNoNewlineAll : List node → Bool
  | [] => true
  | c :: cs => c.labelsNoNewline && node.labelsNoNewlineAll cs
end

mutual
/-- The number of nodes of a tree. -/
def node.size : node → Nat
  | .nil => 0
  | .mk _ cs => 1 + node.sizeAll cs
/-- The number of nodes of a list of trees. -/
def node.sizeAll : List node → Nat
  | [] => 0
  | c :: cs => c.size + node.sizeAll cs
end

mutual
/-- The lines of the rendering as the claim describes them: one line per node
in pre-order (the line of a node, then the lines of its children's subtrees
from left to right), the line of a node at depth `k` being `4 * k` spaces
followed by the label. -/
def treeLines : node → Nat → List String
  | .nil, _ => []
  | .mk l cs, k => (String.mk (List.replicate (4 * k) ' ') ++ l) :: forestLines cs (k + 1)
/-- The lines of a list of trees that all sit at depth `k`. -/
def forestLines : List node → Nat → List String
  | [], _ => []
  | c :: cs, k => treeLines c k ++ forestLines cs k
end

/-- Every line of the list preceded by a newline, concatenated. -/
def prefixed : List String → String
  | [] => ""
  | l :: ls => "\n" ++ l ++ prefixed ls

/-- A leaf of the grammar: a non-nil node labelled with a digit, with no
children. -/
def node.isLeaf : node → Bool
  | .mk l [] => decide (isDigit l)
  | _ => false

mutual
/-- Strict left nesting: the tree is a digit leaf, or an operator node whose
right child is a digit leaf and whose left child is again strictly left
nested; operator nodes occur only at the root or as a left child. -/
def node.leftNested : node → Bool
  | .nil => false
  | .mk l cs => (decide (isDigit l) && cs.isEmpty) || (decide (isOp l) && node.leftNestedPair cs)
/-- The children of an operator node of a strictly left-nested tree. -/
def node.leftNestedPair : List node → Bool
  | [a, b] => a.leftNested && b.isLeaf
  | _ => false
end

mutual
/-- The depth of a tree: the number of nodes on the longest path from the
root to a leaf. -/
def node.depth : node → Nat
  | .nil => 0
  | .mk _ cs => 1 + node.depthAll cs
/-- The largest depth among the trees of a list. -/
def node.depthAll : List node → Nat
  | [] => 0
  | c :: cs => max c.depth (node.depthAll cs)
end

mutual
/-- The in-order traversal of a tree: for a node with two children, the
traversal of the left child, the label, the traversal of the right child; for
any other node, its label. -/
def node.inorder : node → List lexeme
  | .nil => []
  | .mk l cs => node.inorderPair l cs
/-- The in-order traversal of a node with label `l` and children `cs`. -/
def node.inorderPair (l : lexeme) : List node → List lexeme
  | [a, b] => a.inorder ++ l :: b.inorder
  | _ => [l]
end

/-- The body of the `for` loop of `expression`: save the tree, then the
`switch` on `p.peek()`. -/
def parser.loopBody (p : parser) : Except Failure parser := do
  let p := { p with savedTree := p.tree }
  let (s, p) ← p.peek
  if s = Expr.add then p.add
  else if s = Expr.subtract then p.subtract
  else do
    let (found, _) ← p.peek
    .error (.plusOrMinusExpected found)

/-- The invariant of the cursor across an operation from state `p` to state
`p'`: the input is unchanged, the cursor did not move back, and it lies
within the input. -/
def cursorInvariant (p p' : parser) : Prop :=
  p'.input = p.input ∧ p.pos ≤ p'.pos ∧ 0 ≤ p'.pos ∧ p'.pos ≤ (p'.input.length : Int)

/-- The state `p'` is the state `p` with the cursor moved forward by `k`
within the input; the input and the stack are unchanged. -/
def movedBy (k : Int) (p p' : parser) : Prop :=
  p'.input = p.input ∧ p'.stack = p.stack ∧ p'.pos = p.pos + k ∧ 0 ≤ p.pos ∧
    p.pos + k ≤ (p.input.length : Int)

/-- A `node` struct in memory: its `lexeme` and its `children []*node`, the
children being pointers. -/
structure cell where
  lexeme : lexeme
  children : List (Option Nat)

/-- The memory that holds the `node` structs: the struct at address `a` is
the `a`-th cell. -/
abbrev Heap := List cell

/-- A Go `*node` as a pointer into a `Heap`: `none` is nil, `some a` the
address `a`. -/
abbrev Ptr := Option Nat

mutual
/-- The pointer `n` represents the tree `t` in the memory `h`: nil represents
nil, and an address represents a node when the struct stored there has the
node's label and children pointers that represent the node's children. -/
def represents (h : Heap) : Ptr → node → Bool
  | none, .nil => true
  | some a, .mk l cs =>
    match h[a]? with
    | some c => decide (c.lexeme = l) && representsAll h c.children cs
    | none => false
  | _, _ => false
/-- The pointers represent the trees of the list, one by one. -/
def representsAll (h : Heap) : List Ptr → List node → Bool
  | [], [] => true
  | n :: ns, c :: cs => represents h n c && representsAll h ns cs
  | _, _ => false
end

/-- The `for _, child := range n.children` loop of `indentedString` over
pointers: `render` is the recursive call, and the memory each call leaves is
the memory the next one starts from. -/
def heapIndentedChildren (render : Heap → Ptr → Nat → Except Failure (String × Heap)) :
    Heap → List Ptr → Nat → String → Except Failure (String × Heap)
  | h, [], _, c => .ok (c, h)
  | h, child :: rest, indent, c => do
    let (r, h) ← render h child (indent + 1)
    heapIndentedChildren render h rest indent (c ++ "\n" ++ r)

/-- Go `node.indentedString` on a receiver that is a pointer into the memory
`h`; the result carries the memory after the call. A nil receiver panics at
`n.lexeme`; an address outside the memory, which no Go pointer is, is treated
the same way. `fuel` bounds the depth of the recursion. -/
def heapIndentedString : Nat → Heap → Ptr → Nat → Except Failure (String × Heap)
  | _, _, none, _ => .error .nilDereference
  | 0, _, some _, _ => .error .outOfFuel
  | fuel + 1, h, some a, indent =>
    match h[a]? with
    | none => .error .nilDereference
    | some n => do
      let (c, h) ← heapIndentedChildren (heapIndentedString fuel) h n.children indent ""
      .ok (stringsRepeat "    " indent ++ n.lexeme ++ c, h)

/-- Go `node.String` on a receiver that is a pointer into the memory `h`. -/
def heapString (fuel : Nat) (h : Heap) (n : Ptr) : Except Failure (String × Heap) := do
  let (body, h) ← heapIndentedString fuel h n 0
  .ok ("---\n" ++ body ++ "\n---\n", h)

/-! ## The cursor primitives -/

theorem index_append (pre : List lexeme) (x : lexeme) (rest : List lexeme) :
    index (pre ++ x :: rest) (pre.length : Int) = .ok x := by
  have h : ¬ ((pre.length : Int) < 0) := by omega
  have hx : (pre ++ x :: rest)[pre.length]? = some x := by
    rw [List.getElem?_append_right (le_refl _)]; simp
  simp only [index, h, if_false, Int.toNat_ofNat, hx]

theorem peek_at (p : parser) (pre : List lexeme) (x : lexeme) (rest : List lexeme)
    (hin : p.input = pre ++ x :: rest) (hpos : p.pos = pre.length) :
    p.peek = .ok (x, p) := by
  have h : ¬ (p.pos ≥ (p.input.length : Int)) := by
    rw [hin, hpos]; simp
  simp only [parser.peek, h, if_false]
  rw [hin, hpos, index_append]
  rfl

theorem peek_end (p : parser) (hpos : p.pos = p.input.length) :
    p.peek = .ok (eof, p) := by
  simp [parser.peek, hpos]

theorem nextLexeme_at (p : parser) (pre : List lexeme) (x : lexeme) (rest : List lexeme)
    (hin : p.input = pre ++ x :: rest) (hpos : p.pos = pre.length) :
    p.nextLexeme = .ok (x, { p with pos := p.pos + 1 }) := by
  have h : ¬ (p.pos ≥ (p.input.length : Int)) := by
    rw [hin, hpos]; simp
  simp only [parser.nextLexeme, h, if_false]
  rw [hin, hpos, index_append]
  rfl

theorem eof_not_digit : ¬ isDigit eof := by decide

theorem eof_not_op : ¬ isOp eof := by decide

theorem digit_ne_eof (d : lexeme) (h : isDigit d) : d ≠ eof := by
  rintro rfl; exact eof_not_digit h

theorem digit_not_op (d : lexeme) (h : isDigit d) : ¬ isOp d := by
  unfold isDigit at h
  rcases h with h | h | h | h | h | h | h | h | h | h <;> subst h <;> decide

/-! ## `getNum`, `match`, `term` at a known cursor -/

theorem getNum_digit (p : parser) (pre : List lexeme) (d : lexeme) (rest : List lexeme)
    (hin : p.input = pre ++ d :: rest) (hpos : p.pos = pre.length) (hd : isDigit d) :
    p.getNum = .ok (node.mk d [], { p with pos := p.pos + 1 }) := by
  simp only [parser.getNum, peek_at p pre d rest hin hpos, nextLexeme_at p pre d rest hin hpos,
    bind, Except.bind, hd, if_true]

theorem getNum_other (p : parser) (pre : List lexeme) (x : lexeme) (rest : List lexeme)
    (hin : p.input = pre ++ x :: rest) (hpos : p.pos = pre.length) (hx : ¬ isDigit x) :
    p.getNum = .error .digitExpected := by
  simp only [parser.getNum, peek_at p pre x rest hin hpos, bind, Except.bind, hx, if_false]

theorem getNum_end (p : parser) (hpos : p.pos = p.input.length) :
    p.getNum = .error .digitExpected := by
  simp only [parser.getNum, peek_end p hpos, bind, Except.bind, eof_not_digit, if_false]

theorem match_at (p : parser) (pre : List lexeme) (m : lexeme) (rest : List lexeme)
    (hin : p.input = pre ++ m :: rest) (hpos : p.pos = pre.length) :
    p.match_ m = .ok { p with pos := p.pos + 1 } := by
  simp only [parser.match_, peek_at p pre m rest hin hpos, nextLexeme_at p pre m rest hin hpos,
    bind, Except.bind, if_true]

theorem term_digit (p : parser) (pre : List lexeme) (d : lexeme) (rest : List lexeme)
    (hin : p.input = pre ++ d :: rest) (hpos : p.pos = pre.length) (hd : isDigit d) :
    p.term = .ok ⟨p.input, p.pos + 1, p.stack, node.mk d [], p.savedTree⟩ := by
  simp only [parser.term, getNum_digit p pre d rest hin hpos hd, bind, Except.bind]

theorem term_other (p : parser) (pre : List lexeme) (x : lexeme) (rest : List lexeme)
    (hin : p.input = pre ++ x :: rest) (hpos : p.pos = pre.length) (hx : ¬ isDigit x) :
    p.term = .error .digitExpected := by
  simp only [parser.term, getNum_other p pre x rest hin hpos hx, bind, Except.bind]

theorem term_end (p : parser) (hpos : p.pos = p.input.length) :
    p.term = .error .digitExpected := by
  simp only [parser.term, getNum_end p hpos, bind, Except.bind]

/-- What `term` does after an operator has been matched: the three cases of
the lexeme list `rest` that follows the operator. -/
theorem term_after (p : parser) (pre rest : List lexeme)
    (hin : p.input = pre ++ rest) (hpos : p.pos = pre.length) :
    p.term = match rest with
      | [] => .error .digitExpected
      | d :: _ =>
        if isDigit d then .ok ⟨p.input, p.pos + 1, p.stack, node.mk d [], p.savedTree⟩
        else .error .digitExpected := by
  cases rest with
  | nil =>
    simp only
    exact term_end p (by rw [hpos, hin]; simp)
  | cons d rest =>
    simp only
    by_cases hd : isDigit d
    · rw [if_pos hd]; exact term_digit p pre d rest hin hpos hd
    · rw [if_neg hd]; exact term_other p pre d rest hin hpos hd

/-! ## One iteration of the loop of `expression` -/

theorem loopCond_at (p : parser) (pre : List lexeme) (o : lexeme) (rest : List lexeme)
    (hin : p.input = pre ++ o :: rest) (hpos : p.pos = pre.length) :
    p.loopCond = .ok (decide (isOp o), p) := by
  by_cases h1 : o = "+"
  · simp [parser.loopCond, peek_at p pre o rest hin hpos, bind, Except.bind, h1, isOp]
  · simp [parser.loopCond, peek_at p pre o rest hin hpos, bind, Except.bind, h1, isOp]

theorem loopCond_end (p : parser) (hpos : p.pos = p.input.length) :
    p.loopCond = .ok (false, p) := by
  simp [parser.loopCond, peek_end p hpos, bind, Except.bind, eof]

theorem add_at (p : parser) (pre rest : List lexeme)
    (hin : p.input = pre ++ "+" :: rest) (hpos : p.pos = pre.length) :
    p.add = match rest with
      | [] => .error .digitExpected
      | d :: _ =>
        if isDigit d then
          .ok ⟨p.input, p.pos + 2, p.stack, node.mk "+" [p.savedTree, node.mk d []], p.savedTree⟩
        else .error .digitExpected := by
  have hm := match_at p pre "+" rest hin hpos
  have ht := term_after { p with pos := p.pos + 1 } (pre ++ ["+"]) rest
    (by simp [hin]) (by simp [hpos])
  simp only [parser.add, Expr.add, hm, bind, Except.bind, ht]
  cases rest with
  | nil => rfl
  | cons d rest =>
    by_cases hd : isDigit d
    · simp only [hd, if_true, add_assoc]; rfl
    · simp only [hd, if_false]

theorem subtract_at (p : parser) (pre rest : List lexeme)
    (hin : p.input = pre ++ "-" :: rest) (hpos : p.pos = pre.length) :
    p.subtract = match rest with
      | [] => .error .digitExpected
      | d :: _ =>
        if isDigit d then
          .ok ⟨p.input, p.pos + 2, p.stack, node.mk "-" [p.savedTree, node.mk d []], p.savedTree⟩
        else .error .digitExpected := by
  have hm := match_at p pre "-" rest hin hpos
  have ht := term_after { p with pos := p.pos + 1 } (pre ++ ["-"]) rest
    (by simp [hin]) (by simp [hpos])
  simp only [parser.subtract, Expr.subtract, hm, bind, Except.bind, ht]
  cases rest with
  | nil => rfl
  | cons d rest =>
    by_cases hd : isDigit d
    · simp only [hd, if_true, add_assoc]; rfl
    · simp only [hd, if_false]

/-- One evaluation of the loop of `expression` with the cursor in front of the
lexemes `rest`. -/
theorem expressionLoop_succ (fuel : Nat) (p : parser) (pre rest : List lexeme)
    (hin : p.input = pre ++ rest) (hpos : p.pos = pre.length) :
    p.expressionLoop (fuel + 1) = match rest with
      | [] => .ok p
      | [o] => if isOp o then .error .digitExpected else .ok p
      | o :: d :: _ =>
        if isOp o then
          if isDigit d then
            parser.expressionLoop fuel
              ⟨p.input, p.pos + 2, p.stack, node.mk o [p.tree, node.mk d []], p.tree⟩
          else .error .digitExpected
        else .ok p := by
  cases rest with
  | nil =>
    have hc := loopCond_end p (by rw [hpos, hin]; simp)
    simp [parser.expressionLoop, hc, bind, Except.bind]
  | cons o rest =>
    have hc := loopCond_at p pre o rest hin hpos
    by_cases ho : isOp o
    · have hp := peek_at { p with savedTree := p.tree } pre o rest hin hpos
      rcases ho with rfl | rfl
      · have ha := add_at { p with savedTree := p.tree } pre rest hin hpos
        cases rest with
        | nil => simp [parser.expressionLoop, hc, bind, Except.bind, hp, ha, isOp, Expr.add]
        | cons d rest =>
          by_cases hd : isDigit d <;>
            simp [parser.expressionLoop, hc, bind, Except.bind, hp, ha, isOp, Expr.add, hd]
      · have ha := subtract_at { p with savedTree := p.tree } pre rest hin hpos
        cases rest with
        | nil =>
          simp [parser.expressionLoop, hc, bind, Except.bind, hp, ha, isOp, Expr.add,
            Expr.subtract]
        | cons d rest =>
          by_cases hd : isDigit d <;>
            simp [parser.expressionLoop, hc, bind, Except.bind, hp, ha, isOp, Expr.add,
              Expr.subtract, hd]
    · cases rest <;> simp [parser.expressionLoop, hc, bind, Except.bind, ho]

/-- The loop of `expression` computes `walk` on the lexemes from the cursor
on, whenever the budget exceeds their number. -/
theorem expressionLoop_eq_walk (fuel : Nat) :
    ∀ (p : parser) (pre rest : List lexeme), p.input = pre ++ rest → p.pos = pre.length →
      rest.length < fuel → p.expressionLoop fuel = walk p rest := by
  induction fuel with
  | zero => intro p pre rest _ _ h; omega
  | succ fuel ih =>
    intro p pre rest hin hpos hfuel
    rw [expressionLoop_succ fuel p pre rest hin hpos]
    match rest, hin, hfuel with
    | [], _, _ => simp [walk]
    | [o], _, _ => simp [walk]
    | o :: d :: rest, hin, hfuel =>
      have := ih ⟨p.input, p.pos + 2, p.stack, node.mk o [p.tree, node.mk d []], p.tree⟩
        (pre ++ [o, d]) rest (by simp [hin]) (by simp [hpos])
        (by simp at hfuel; omega)
      simp only [walk, this]

/-! ## `parse` in terms of `walk` -/

theorem parse_nil : (newParser []).parse = .ok (node.nil, newParser []) := by
  rfl

theorem parse_cons (x : lexeme) (rest : List lexeme) :
    (newParser (x :: rest)).parse =
      if x = eof then .ok (node.nil, newParser (x :: rest))
      else if isDigit x then
        match walk ⟨x :: rest, 1, [], node.mk x [], node.nil⟩ rest with
        | .ok p => .ok (p.tree, p)
        | .error e => .error e
      else .error .digitExpected := by
  have hp := peek_at (newParser (x :: rest)) [] x rest rfl rfl
  by_cases hx : x = eof
  · simp only [parser.parse, hp, bind, Except.bind]
    simp only [hx, if_true]
  · by_cases hd : isDigit x
    · have ht := term_digit (newParser (x :: rest)) [] x rest rfl rfl hd
      have hl := expressionLoop_eq_walk ((x :: rest).length + 1)
        ⟨x :: rest, 1, [], node.mk x [], node.nil⟩ [x] rest rfl rfl
        (by simp only [List.length_cons]; omega)
      simp only [parser.parse, hp, bind, Except.bind, hx, if_false, hd, if_true,
        parser.expression, ht]
      simp only [newParser, zero_add]
      rw [hl]
      cases walk ⟨x :: rest, 1, [], node.mk x [], node.nil⟩ rest <;> rfl
    · have ht := term_other (newParser (x :: rest)) [] x rest rfl rfl hd
      simp only [parser.parse, hp, bind, Except.bind, hx, if_false, hd,
        parser.expression, ht]

/-! ## The shape of the lexemes behind the cursor -/

theorem walk_pairs (pairs : List (lexeme × lexeme)) (tail : List lexeme) :
    ∀ (p : parser), validPairs pairs → (∀ o, tail.head? = some o → ¬ isOp o) →
      ∃ p', walk p (opsDigits pairs ++ tail) = .ok p' ∧ p'.input = p.input ∧
        p'.pos = p.pos + 2 * pairs.length ∧ p'.stack = p.stack ∧
        p'.tree = foldPairs p.tree pairs := by
  induction pairs with
  | nil =>
    intro p _ htail
    refine ⟨p, ?_, rfl, by simp, rfl, rfl⟩
    match tail, htail with
    | [], _ => simp [opsDigits, walk]
    | [o], htail => simp [opsDigits, walk, htail o rfl]
    | o :: d :: rest, htail => simp [opsDigits, walk, htail o rfl]
  | cons od pairs ih =>
    intro p hv htail
    have hod := hv od (List.mem_cons_self _ _)
    have hv' : validPairs pairs := fun x hx => hv x (List.mem_cons_of_mem _ hx)
    obtain ⟨p', h1, h2, h3, h4, h5⟩ :=
      ih ⟨p.input, p.pos + 2, p.stack, node.mk od.1 [p.tree, node.mk od.2 []], p.tree⟩ hv' htail
    refine ⟨p', ?_, h2, ?_, h4, ?_⟩
    · simp only [opsDigits, List.cons_append, walk, hod.1, hod.2, if_true]
      exact h1
    · rw [h3]; simp only [List.length_cons]; push_cast; ring
    · rw [h5]; rfl

theorem walk_dangling (pairs : List (lexeme × lexeme)) (o : lexeme) (tail : List lexeme) :
    ∀ (p : parser), validPairs pairs → isOp o → (∀ d, tail.head? = some d → ¬ isDigit d) →
      walk p (opsDigits pairs ++ o :: tail) = .error .digitExpected := by
  induction pairs with
  | nil =>
    intro p _ ho htail
    match tail, htail with
    | [], _ => simp [opsDigits, walk, ho]
    | d :: rest, htail => simp [opsDigits, walk, ho, htail d rfl]
  | cons od pairs ih =>
    intro p hv ho htail
    have hod := hv od (List.mem_cons_self _ _)
    have hv' : validPairs pairs := fun x hx => hv x (List.mem_cons_of_mem _ hx)
    simp only [opsDigits, List.cons_append, walk, hod.1, hod.2, if_true]
    exact ih _ hv' ho htail

/-- Every lexeme list is a run of (operator, digit) pairs followed either by
something that does not start with an operator, or by an operator that is not
followed by a digit. -/
theorem shape : ∀ (rest : List lexeme),
    (∃ pairs tail, rest = opsDigits pairs ++ tail ∧ validPairs pairs ∧
      (∀ o, tail.head? = some o → ¬ isOp o)) ∨
    (∃ pairs o tail, rest = opsDigits pairs ++ o :: tail ∧ validPairs pairs ∧ isOp o ∧
      (∀ d, tail.head? = some d → ¬ isDigit d))
  | [] => .inl ⟨[], [], rfl, by simp [validPairs], by simp⟩
  | [o] => by
    by_cases ho : isOp o
    · exact .inr ⟨[], o, [], rfl, by simp [validPairs], ho, by simp⟩
    · exact .inl ⟨[], [o], rfl, by simp [validPairs], by simpa using ho⟩
  | o :: d :: rest => by
    by_cases ho : isOp o
    · by_cases hd : isDigit d
      · rcases shape rest with ⟨pairs, tail, h1, h2, h3⟩ | ⟨pairs, o', tail, h1, h2, h3, h4⟩
        · refine .inl ⟨(o, d) :: pairs, tail, by simp [opsDigits, h1], ?_, h3⟩
          intro x hx
          rcases List.mem_cons.1 hx with rfl | hx
          · exact ⟨ho, hd⟩
          · exact h2 x hx
        · refine .inr ⟨(o, d) :: pairs, o', tail, by simp [opsDigits, h1], ?_, h3, h4⟩
          intro x hx
          rcases List.mem_cons.1 hx with rfl | hx
          · exact ⟨ho, hd⟩
          · exact h2 x hx
      · exact .inr ⟨[], o, d :: rest, rfl, by simp [validPairs], ho, by simpa using hd⟩
    · exact .inl ⟨[], o :: d :: rest, rfl, by simp [validPairs], by simpa using ho⟩

/-! ## `newNode` -/

theorem newNode_cons (x : lexeme) (rest : List lexeme) :
    newNode (x :: rest) =
      if x = eof then .ok node.nil
      else if isDigit x then
        match walk ⟨x :: rest, 1, [], node.mk x [], node.nil⟩ rest with
        | .ok p => .ok p.tree
        | .error e => .error e
      else .error .digitExpected := by
  simp only [newNode, parse_cons, bind, Except.bind]
  by_cases hx : x = eof
  · simp only [hx, if_true]
  · by_cases hd : isDigit x
    · simp only [hx, if_false, hd, if_true]
      cases walk ⟨x :: rest, 1, [], node.mk x [], node.nil⟩ rest <;> rfl
    · simp only [hx, if_false, hd]

/-- The run of `parse` on a digit followed by (operator, digit) pairs and a
tail that does not start with an operator. -/
theorem parse_pairs (d0 : lexeme) (pairs : List (lexeme × lexeme)) (tail : List lexeme)
    (h0 : isDigit d0) (hv : validPairs pairs) (htail : ∀ o, tail.head? = some o → ¬ isOp o) :
    ∃ p', (newParser (d0 :: (opsDigits pairs ++ tail))).parse = .ok (p'.tree, p') ∧
      p'.input = d0 :: (opsDigits pairs ++ tail) ∧ p'.pos = 1 + 2 * pairs.length ∧
      p'.stack = [] ∧ p'.tree = foldPairs (node.mk d0 []) pairs := by
  obtain ⟨p', h1, h2, h3, h4, h5⟩ := walk_pairs pairs tail
    ⟨d0 :: (opsDigits pairs ++ tail), 1, [], node.mk d0 [], node.nil⟩ hv htail
  refine ⟨p', ?_, h2, h3, h4, h5⟩
  rw [parse_cons, if_neg (digit_ne_eof d0 h0), if_pos h0, h1]

/-- The run of `parse` on a digit followed by (operator, digit) pairs and an
operator that is not followed by a digit. -/
theorem parse_dangling (d0 : lexeme) (pairs : List (lexeme × lexeme)) (o : lexeme)
    (tail : List lexeme) (h0 : isDigit d0) (hv : validPairs pairs) (ho : isOp o)
    (htail : ∀ d, tail.head? = some d → ¬ isDigit d) :
    (newParser (d0 :: (opsDigits pairs ++ o :: tail))).parse = .error .digitExpected := by
  rw [parse_cons, if_neg (digit_ne_eof d0 h0), if_pos h0,
    walk_dangling pairs o tail _ hv ho htail]

theorem newNode_of_parse (s : List lexeme) (t : node) (p' : parser)
    (h : (newParser s).parse = .ok (t, p')) : newNode s = .ok t := by
  simp only [newNode, h, bind, Except.bind]

theorem newNode_of_parse_error (s : List lexeme) (e : Failure)
    (h : (newParser s).parse = .error e) : newNode s = .error e := by
  simp only [newNode, h, bind, Except.bind]

theorem newNode_ok (s : List lexeme) (t : node) (h : newNode s = .ok t) :
    ∃ p', (newParser s).parse = .ok (t, p') := by
  simp only [newNode, bind, Except.bind] at h
  cases hp : (newParser s).parse with
  | error e => rw [hp] at h; cases h
  | ok r =>
    rw [hp] at h
    obtain ⟨t', p'⟩ := r
    simp only [Except.ok.injEq] at h
    exact ⟨p', by rw [h]⟩

theorem foldPairs_ne_nil (pairs : List (lexeme × lexeme)) (d0 : lexeme) :
    foldPairs (node.mk d0 []) pairs ≠ node.nil := by
  have key : ∀ (ps : List (lexeme × lexeme)) (t : node), t ≠ node.nil →
      foldPairs t ps ≠ node.nil := by
    intro ps
    induction ps with
    | nil => intro t ht; exact ht
    | cons od ps ih =>
      intro t _
      exact ih _ (by intro h; cases h)
  exact key pairs _ (by intro h; cases h)

/-- Whenever `parse` returns a tree, the input is a digit followed by
(operator, digit) pairs and a tail that does not start with an operator, the
cursor stands in front of that tail, and the tree is the left fold. -/
theorem parse_ok_shape (s : List lexeme) (t : node) (p' : parser)
    (h : (newParser s).parse = .ok (t, p')) (ht : t ≠ node.nil) :
    ∃ d0 pairs tail, s = d0 :: (opsDigits pairs ++ tail) ∧ isDigit d0 ∧ validPairs pairs ∧
      (∀ o, tail.head? = some o → ¬ isOp o) ∧ p'.input = s ∧
      p'.pos = 1 + 2 * pairs.length ∧ p'.stack = [] ∧
      t = foldPairs (node.mk d0 []) pairs := by
  cases s with
  | nil =>
    rw [parse_nil] at h
    simp only [Except.ok.injEq, Prod.mk.injEq] at h
    exact absurd h.1.symm ht
  | cons x rest =>
    by_cases hx : x = eof
    · rw [parse_cons, if_pos hx] at h
      simp only [Except.ok.injEq, Prod.mk.injEq] at h
      exact absurd h.1.symm ht
    · by_cases hd : isDigit x
      · rcases shape rest with ⟨pairs, tail, h1, h2, h3⟩ | ⟨pairs, o, tail, h1, h2, h3, h4⟩
        · obtain ⟨p'', e1, e2, e3, e4, e5⟩ := parse_pairs x pairs tail hd h2 h3
          rw [← h1] at e1 e2
          rw [e1] at h
          simp only [Except.ok.injEq, Prod.mk.injEq] at h
          obtain ⟨ht', hp'⟩ := h
          subst hp'
          exact ⟨x, pairs, tail, by rw [h1], hd, h2, h3, e2, e3, e4, by rw [← ht', e5]⟩
        · have e := parse_dangling x pairs o tail hd h2 h3 h4
          rw [← h1, h] at e
          cases e
      · rw [parse_cons, if_neg hx, if_neg hd] at h
        cases h

theorem length_opsDigits (pairs : List (lexeme × lexeme)) :
    (opsDigits pairs).length = 2 * pairs.length := by
  induction pairs with
  | nil => rfl
  | cons od pairs ih => simp only [opsDigits, List.length_cons, ih]; omega

theorem isExpressionTail_opsDigits (pairs : List (lexeme × lexeme)) (hv : validPairs pairs) :
    isExpressionTail (opsDigits pairs) = true := by
  induction pairs with
  | nil => rfl
  | cons od pairs ih =>
    have hod := hv od (List.mem_cons_self _ _)
    have hv' : validPairs pairs := fun x hx => hv x (List.mem_cons_of_mem _ hx)
    simp [opsDigits, isExpressionTail, hod.1, hod.2, ih hv']

theorem opsDigits_of_isExpressionTail : ∀ (rest : List lexeme),
    isExpressionTail rest = true → ∃ pairs, validPairs pairs ∧ rest = opsDigits pairs
  | [], _ => ⟨[], by simp [validPairs], rfl⟩
  | [_], h => by simp [isExpressionTail] at h
  | o :: d :: rest, h => by
    simp only [isExpressionTail, Bool.and_eq_true, decide_eq_true_eq] at h
    obtain ⟨pairs, hv, hr⟩ := opsDigits_of_isExpressionTail rest h.2
    refine ⟨(o, d) :: pairs, ?_, by simp [opsDigits, hr]⟩
    intro x hx
    rcases List.mem_cons.1 hx with rfl | hx
    · exact h.1
    · exact hv x hx

theorem take_expression (d0 : lexeme) (pairs : List (lexeme × lexeme)) (tail : List lexeme) :
    (d0 :: (opsDigits pairs ++ tail)).take (1 + 2 * pairs.length) = d0 :: opsDigits pairs := by
  rw [Nat.add_comm, List.take_succ_cons, ← length_opsDigits, List.take_left]

theorem getElem?_expression (d0 : lexeme) (pairs : List (lexeme × lexeme))
    (tail : List lexeme) :
    (d0 :: (opsDigits pairs ++ tail))[1 + 2 * pairs.length]? = tail.head? := by
  rw [Nat.add_comm, List.getElem?_cons_succ, ← length_opsDigits,
    List.getElem?_append_right (le_refl _), Nat.sub_self]
  cases tail <;> simp

theorem foldPairs_arityOk (pairs : List (lexeme × lexeme)) (hv : validPairs pairs) :
    ∀ (t : node), t.arityOk = true → (foldPairs t pairs).arityOk = true := by
  induction pairs with
  | nil => intro t ht; exact ht
  | cons od pairs ih =>
    intro t ht
    have hod := hv od (List.mem_cons_self _ _)
    have hv' : validPairs pairs := fun x hx => hv x (List.mem_cons_of_mem _ hx)
    apply ih hv'
    simp [node.arityOk, node.arityOkAll, hod.1, hod.2, ht]

/-! ## Where a digit is missing -/

theorem missingDigit_nil : missingDigit [] 0 :=
  ⟨rfl, le_refl _, fun _ h => absurd h (Nat.not_lt_zero _),
    fun _ h => absurd h (Nat.not_lt_zero _), .inl rfl⟩

theorem missingDigit_cons (d : lexeme) (rest : List lexeme) :
    (∃ k, missingDigit (d :: rest) k) ↔
      ¬ isDigit d ∨
      (isDigit d ∧ ∃ o tail, rest = o :: tail ∧ isOp o ∧ ∃ k, missingDigit tail k) := by
  constructor
  · rintro ⟨k, hk, hle, hev, hod, hlast⟩
    match k, hk, hle, hev, hod, hlast with
    | 0, _, _, _, _, hlast =>
      rcases hlast with h | ⟨x, hx, hnd⟩
      · simp at h
      · simp only [List.getElem?_cons_zero, Option.some.injEq] at hx
        subst hx
        exact .inl hnd
    | 1, hk, _, _, _, _ => omega
    | k + 2, hk, hle, hev, hod, hlast =>
      right
      obtain ⟨x, hx, hxd⟩ := hev 0 (by omega) rfl
      simp only [List.getElem?_cons_zero, Option.some.injEq] at hx
      subst hx
      refine ⟨hxd, ?_⟩
      cases rest with
      | nil => simp at hle
      | cons o tail =>
        obtain ⟨y, hy, hyo⟩ := hod 1 (by omega) rfl
        simp only [List.getElem?_cons_succ, List.getElem?_cons_zero, Option.some.injEq] at hy
        subst hy
        refine ⟨o, tail, rfl, hyo, k, by omega, ?_, ?_, ?_, ?_⟩
        · simp only [List.length_cons] at hle; omega
        · intro i hi he
          have := hev (i + 2) (by omega) (by omega)
          simpa only [List.getElem?_cons_succ] using this
        · intro i hi ho
          have := hod (i + 2) (by omega) (by omega)
          simpa only [List.getElem?_cons_succ] using this
        · rcases hlast with h | h
          · left; simp only [List.length_cons] at h; omega
          · right; simpa only [List.getElem?_cons_succ] using h
  · rintro (hnd | ⟨hd, o, tail, rfl, ho, k, hk, hle, hev, hod, hlast⟩)
    · exact ⟨0, rfl, Nat.zero_le _, fun _ h => absurd h (Nat.not_lt_zero _),
        fun _ h => absurd h (Nat.not_lt_zero _), .inr ⟨d, by simp, hnd⟩⟩
    · refine ⟨k + 2, by omega, by simp only [List.length_cons]; omega, ?_, ?_, ?_⟩
      · intro i hi he
        match i, hi, he with
        | 0, _, _ => exact ⟨d, by simp, hd⟩
        | 1, _, he => omega
        | i + 2, hi, he =>
          simp only [List.getElem?_cons_succ]
          exact hev i (by omega) (by omega)
      · intro i hi hodd
        match i, hi, hodd with
        | 0, _, hodd => omega
        | 1, _, _ => exact ⟨o, by simp, ho⟩
        | i + 2, hi, hodd =>
          simp only [List.getElem?_cons_succ]
          exact hod i (by omega) (by omega)
      · rcases hlast with h | h
        · left; simp only [List.length_cons]; omega
        · right; simpa only [List.getElem?_cons_succ] using h

theorem walk_error_iff : ∀ (rest : List lexeme) (p : parser),
    (∃ e, walk p rest = .error e) ↔
      ∃ o tail, rest = o :: tail ∧ isOp o ∧ ∃ k, missingDigit tail k
  | [], p => by simp [walk]
  | [o], p => by
    by_cases ho : isOp o
    · simp only [walk, ho, if_true]
      exact ⟨fun _ => ⟨o, [], rfl, ho, 0, missingDigit_nil⟩, fun _ => ⟨_, rfl⟩⟩
    · simp only [walk, ho, if_false]
      constructor
      · rintro ⟨e, h⟩; cases h
      · rintro ⟨o', tail, h, ho', _⟩
        simp only [List.cons.injEq] at h
        rw [← h.1] at ho'
        exact absurd ho' ho
  | o :: d :: rest, p => by
    have ih := walk_error_iff rest
      ⟨p.input, p.pos + 2, p.stack, node.mk o [p.tree, node.mk d []], p.tree⟩
    by_cases ho : isOp o
    · by_cases hd : isDigit d
      · simp only [walk, ho, hd, if_true]
        rw [ih]
        constructor
        · intro h
          exact ⟨o, d :: rest, rfl, ho, (missingDigit_cons d rest).2 (.inr ⟨hd, h⟩)⟩
        · rintro ⟨o', tail, h, _, hk⟩
          simp only [List.cons.injEq] at h
          rw [← h.2] at hk
          rcases (missingDigit_cons d rest).1 hk with hnd | ⟨_, h'⟩
          · exact absurd hd hnd
          · exact h'
      · simp only [walk, ho, hd, if_true, if_false]
        exact ⟨fun _ => ⟨o, d :: rest, rfl, ho, (missingDigit_cons d rest).2 (.inl hd)⟩,
          fun _ => ⟨_, rfl⟩⟩
    · simp only [walk, ho, if_false]
      constructor
      · rintro ⟨e, h⟩; cases h
      · rintro ⟨o', tail, h, ho', _⟩
        simp only [List.cons.injEq] at h
        rw [← h.1] at ho'
        exact absurd ho' ho

theorem newNode_error_iff (x : lexeme) (rest : List lexeme) (hx : x ≠ eof) :
    (∃ e, newNode (x :: rest) = .error e) ↔ ∃ k, missingDigit (x :: rest) k := by
  rw [missingDigit_cons, newNode_cons, if_neg hx]
  by_cases hd : isDigit x
  · rw [if_pos hd, ← walk_error_iff rest ⟨x :: rest, 1, [], node.mk x [], node.nil⟩]
    cases hw : walk ⟨x :: rest, 1, [], node.mk x [], node.nil⟩ rest with
    | error e =>
      exact ⟨fun _ => .inr ⟨hd, e, rfl⟩, fun _ => ⟨e, rfl⟩⟩
    | ok q =>
      constructor
      · rintro ⟨e, h⟩; cases h
      · rintro (h | ⟨_, e, h⟩)
        · exact absurd hd h
        · cases h
  · rw [if_neg hd]
    exact ⟨fun _ => .inl hd, fun _ => ⟨_, rfl⟩⟩

/-! ## Rendering -/

theorem stringsRepeat_spaces (k : Nat) :
    stringsRepeat "    " k = String.mk (List.replicate (4 * k) ' ') := by
  induction k with
  | zero => rfl
  | succ k ih =>
    apply String.ext
    simp only [stringsRepeat, ih, String.data_append]
    have h4 : 4 * (k + 1) = 4 + 4 * k := by ring
    rw [h4, List.replicate_add]
    rfl

theorem intercalate_go (ls : List String) :
    ∀ acc : String, String.intercalate.go acc "\n" ls = acc ++ prefixed ls := by
  induction ls with
  | nil => intro acc; simp [String.intercalate.go, prefixed]
  | cons l ls ih =>
    intro acc
    simp only [String.intercalate.go, ih, prefixed, String.append_assoc]

theorem intercalate_cons (l : String) (ls : List String) :
    String.intercalate "\n" (l :: ls) = l ++ prefixed ls := by
  simp only [String.intercalate, intercalate_go]

theorem prefixed_append (a b : List String) :
    prefixed (a ++ b) = prefixed a ++ prefixed b := by
  induction a with
  | nil => simp [prefixed]
  | cons l a ih =>
    rw [List.cons_append, prefixed, prefixed, ih]
    simp only [String.append_assoc]

theorem prefixed_lines (c : node) (k : Nat) (h : c.noNil = true) :
    "\n" ++ String.intercalate "\n" (treeLines c k) = prefixed (treeLines c k) := by
  cases c with
  | nil => simp [node.noNil] at h
  | mk l cs => simp only [treeLines, intercalate_cons, prefixed, String.append_assoc]

mutual
theorem indentedString_eq : ∀ (t : node) (k : Nat), t.noNil = true →
    t.indentedString k = .ok (String.intercalate "\n" (treeLines t k))
  | .nil, _, h => by simp [node.noNil] at h
  | .mk l cs, k, h => by
    have hc := indentedChildren_eq cs k "" (by simpa [node.noNil] using h)
    simp only [node.indentedString, hc, bind, Except.bind, treeLines, intercalate_cons,
      stringsRepeat_spaces, String.empty_append]
theorem indentedChildren_eq : ∀ (cs : List node) (k : Nat) (acc : String),
    node.noNilAll cs = true →
    node.indentedChildren cs k acc = .ok (acc ++ prefixed (forestLines cs (k + 1)))
  | [], _, acc, _ => by simp [node.indentedChildren, forestLines, prefixed]
  | c :: cs, k, acc, h => by
    simp only [node.noNilAll, Bool.and_eq_true] at h
    have h1 := indentedString_eq c (k + 1) h.1
    have h2 := indentedChildren_eq cs k
      (acc ++ "\n" ++ String.intercalate "\n" (treeLines c (k + 1))) h.2
    simp only [String.append_assoc, prefixed_lines c (k + 1) h.1] at h2
    simp only [node.indentedChildren, h1, bind, Except.bind, forestLines,
      prefixed_append, String.append_assoc, prefixed_lines c (k + 1) h.1, h2]
end

mutual
theorem length_treeLines : ∀ (t : node) (k : Nat), (treeLines t k).length = t.size
  | .nil, _ => rfl
  | .mk l cs, k => by
    simp only [treeLines, node.size, List.length_cons, length_forestLines cs (k + 1)]
    omega
theorem length_forestLines : ∀ (cs : List node) (k : Nat),
    (forestLines cs k).length = node.sizeAll cs
  | [], _ => rfl
  | c :: cs, k => by
    simp only [forestLines, node.sizeAll, List.length_append, length_treeLines c k,
      length_forestLines cs k]
end

mutual
theorem treeLines_no_newline : ∀ (t : node) (k : Nat), t.labelsNoNewline = true →
    ∀ l ∈ treeLines t k, '\n' ∉ l.data
  | .nil, _, _ => by simp [treeLines]
  | .mk l cs, k, h => by
    simp only [node.labelsNoNewline, Bool.and_eq_true, decide_eq_true_eq] at h
    intro x hx
    simp only [treeLines, List.mem_cons] at hx
    rcases hx with rfl | hx
    · simp only [String.data_append, List.mem_append, not_or]
      refine ⟨?_, h.1⟩
      intro hm
      have := List.eq_of_mem_replicate hm
      exact absurd this (by decide)
    · exact forestLines_no_newline cs (k + 1) h.2 x hx
theorem forestLines_no_newline : ∀ (cs : List node) (k : Nat),
    node.labelsNoNewlineAll cs = true → ∀ l ∈ forestLines cs k, '\n' ∉ l.data
  | [], _, _ => by simp [forestLines]
  | c :: cs, k, h => by
    simp only [node.labelsNoNewlineAll, Bool.and_eq_true] at h
    intro x hx
    simp only [forestLines, List.mem_append] at hx
    rcases hx with hx | hx
    · exact treeLines_no_newline c k h.1 x hx
    · exact forestLines_no_newline cs k h.2 x hx
end

/-! ## Shape, size and traversal of the left fold -/

theorem validPairs_cons (od : lexeme × lexeme) (pairs : List (lexeme × lexeme))
    (hv : validPairs (od :: pairs)) : (isOp od.1 ∧ isDigit od.2) ∧ validPairs pairs :=
  ⟨hv od (List.mem_cons_self _ _), fun x hx => hv x (List.mem_cons_of_mem _ hx)⟩

theorem foldPairs_leftNested (pairs : List (lexeme × lexeme)) (hv : validPairs pairs) :
    ∀ (t : node), t.leftNested = true → (foldPairs t pairs).leftNested = true := by
  induction pairs with
  | nil => intro t ht; exact ht
  | cons od pairs ih =>
    intro t ht
    obtain ⟨hod, hv'⟩ := validPairs_cons od pairs hv
    apply ih hv'
    simp [node.leftNested, node.leftNestedPair, node.isLeaf, hod.1, hod.2, ht]

theorem foldPairs_size (pairs : List (lexeme × lexeme)) :
    ∀ (t : node), (foldPairs t pairs).size = t.size + 2 * pairs.length := by
  induction pairs with
  | nil => intro t; rfl
  | cons od pairs ih =>
    intro t
    have h := ih (node.mk od.1 [t, node.mk od.2 []])
    simp only [node.size, node.sizeAll] at h
    simp only [List.length_cons]
    show (foldPairs (node.mk od.1 [t, node.mk od.2 []]) pairs).size = _
    omega

theorem foldPairs_depth (pairs : List (lexeme × lexeme)) :
    ∀ (t : node), 1 ≤ t.depth → (foldPairs t pairs).depth = t.depth + pairs.length := by
  induction pairs with
  | nil => intro t _; rfl
  | cons od pairs ih =>
    intro t ht
    have hd : (node.mk od.1 [t, node.mk od.2 []]).depth = 1 + t.depth := by
      simp only [node.depth, node.depthAll]
      omega
    have h := ih (node.mk od.1 [t, node.mk od.2 []]) (by omega)
    rw [hd] at h
    simp only [List.length_cons]
    show (foldPairs (node.mk od.1 [t, node.mk od.2 []]) pairs).depth = _
    omega

theorem foldPairs_inorder (pairs : List (lexeme × lexeme)) :
    ∀ (t : node), (foldPairs t pairs).inorder = t.inorder ++ opsDigits pairs := by
  induction pairs with
  | nil => intro t; simp [foldPairs, opsDigits]
  | cons od pairs ih =>
    intro t
    have h := ih (node.mk od.1 [t, node.mk od.2 []])
    simp only [node.inorder, node.inorderPair] at h
    show (foldPairs (node.mk od.1 [t, node.mk od.2 []]) pairs).inorder = _
    rw [h]
    simp [opsDigits]

theorem expression_of_isExpression (s : List lexeme) (h : isExpression s = true) :
    ∃ d0 pairs, s = d0 :: opsDigits pairs ∧ isDigit d0 ∧ validPairs pairs := by
  cases s with
  | nil => simp [isExpression] at h
  | cons d rest =>
    simp only [isExpression, Bool.and_eq_true, decide_eq_true_eq] at h
    obtain ⟨pairs, hv, hr⟩ := opsDigits_of_isExpressionTail rest h.2
    exact ⟨d, pairs, by rw [hr], h.1, hv⟩

theorem newNode_expression (d0 : lexeme) (pairs : List (lexeme × lexeme)) (tail : List lexeme)
    (h0 : isDigit d0) (hv : validPairs pairs) (htail : ∀ o, tail.head? = some o → ¬ isOp o) :
    newNode (d0 :: (opsDigits pairs ++ tail)) = .ok (foldPairs (node.mk d0 []) pairs) := by
  obtain ⟨p', h1, _, _, _, h5⟩ := parse_pairs d0 pairs tail h0 hv htail
  rw [newNode_of_parse _ _ _ h1, h5]

/-- On an input that does not start with the sentinel, `parse` never returns
nil. -/
theorem parse_cons_ne_nil (x : lexeme) (rest : List lexeme) (hx : x ≠ eof) (t : node)
    (p' : parser) (h : (newParser (x :: rest)).parse = .ok (t, p')) : t ≠ node.nil := by
  by_cases hd : isDigit x
  · rcases shape rest with ⟨pairs, tail, h1, h2, h3⟩ | ⟨pairs, o, tail, h1, h2, h3, h4⟩
    · obtain ⟨q, e1, _, _, _, e5⟩ := parse_pairs x pairs tail hd h2 h3
      rw [← h1, h] at e1
      simp only [Except.ok.injEq, Prod.mk.injEq] at e1
      rw [e1.1, e5]
      exact foldPairs_ne_nil pairs x
    · have e := parse_dangling x pairs o tail hd h2 h3 h4
      rw [← h1, h] at e
      cases e
  · rw [parse_cons, if_neg hx, if_neg hd] at h
    cases h

/-! ## The operations in an arbitrary state -/

/-- The three cases of the cursor: at or past the end, negative, or on a
lexeme of the input. -/
theorem cursor_cases (p : parser) :
    ((p.input.length : Int) ≤ p.pos ∧ p.peek = .ok (eof, p) ∧ p.nextLexeme = .ok (eof, p)) ∨
    (p.pos < 0 ∧ p.peek = .error .indexOutOfRange ∧
      p.nextLexeme = .error .indexOutOfRange) ∨
    (0 ≤ p.pos ∧ p.pos < (p.input.length : Int) ∧ ∃ x, p.input[p.pos.toNat]? = some x ∧
      p.peek = .ok (x, p) ∧
      p.nextLexeme = .ok (x, ⟨p.input, p.pos + 1, p.stack, p.tree, p.savedTree⟩)) := by
  by_cases hge : (p.input.length : Int) ≤ p.pos
  · left
    have h : p.pos ≥ (p.input.length : Int) := hge
    exact ⟨hge, by simp [parser.peek, h], by simp [parser.nextLexeme, h]⟩
  · right
    have h : ¬ (p.pos ≥ (p.input.length : Int)) := hge
    by_cases hneg : p.pos < 0
    · left
      exact ⟨hneg, by simp [parser.peek, h, index, hneg, bind, Except.bind],
        by simp [parser.nextLexeme, h, index, hneg, bind, Except.bind]⟩
    · right
      have hlt : p.pos.toNat < p.input.length := by omega
      have hx : p.input[p.pos.toNat]? = some (p.input[p.pos.toNat]) :=
        List.getElem?_eq_getElem hlt
      refine ⟨by omega, by omega, p.input[p.pos.toNat], hx, ?_, ?_⟩
      · simp only [parser.peek, h, if_false, index, hneg, hx, bind, Except.bind]
      · simp only [parser.nextLexeme, h, if_false, index, hneg, hx, bind, Except.bind]

theorem movedBy_mk (p : parser) (k : Int) (t u : node) (h0 : 0 ≤ p.pos)
    (hk : p.pos + k ≤ (p.input.length : Int)) :
    movedBy k p ⟨p.input, p.pos + k, p.stack, t, u⟩ :=
  ⟨rfl, rfl, rfl, h0, hk⟩

theorem movedBy_trans (j k : Int) (p q r : parser) (h1 : movedBy j p q)
    (h2 : movedBy k q r) : movedBy (j + k) p r := by
  obtain ⟨a1, a2, a3, a4, _⟩ := h1
  obtain ⟨b1, b2, b3, _, b5⟩ := h2
  refine ⟨by rw [b1, a1], by rw [b2, a2], by rw [b3, a3]; ring, a4, ?_⟩
  rw [a3, a1] at b5
  omega

theorem getNum_ok (p : parser) (n : node) (p' : parser) (h : p.getNum = .ok (n, p')) :
    movedBy 1 p p' ∧ p'.tree = p.tree ∧ p'.savedTree = p.savedTree ∧ n.isLeaf = true := by
  rcases cursor_cases p with ⟨_, hp, _⟩ | ⟨_, hp, _⟩ | ⟨h0, hlt, x, _, hp, hn⟩
  · simp [parser.getNum, hp, bind, Except.bind, eof_not_digit] at h
  · simp [parser.getNum, hp, bind, Except.bind] at h
  · by_cases hd : isDigit x
    · simp only [parser.getNum, hp, hn, bind, Except.bind, hd, if_true, Except.ok.injEq,
        Prod.mk.injEq] at h
      obtain ⟨rfl, rfl⟩ := h
      exact ⟨movedBy_mk p 1 _ _ h0 (by omega), rfl, rfl, by simp [node.isLeaf, hd]⟩
    · simp [parser.getNum, hp, bind, Except.bind, hd] at h

theorem getNum_error (p : parser) (e : Failure) (h : p.getNum = .error e) (h0 : 0 ≤ p.pos) :
    e = .digitExpected := by
  rcases cursor_cases p with ⟨_, hp, _⟩ | ⟨hneg, _, _⟩ | ⟨_, _, x, _, hp, hn⟩
  · simp [parser.getNum, hp, bind, Except.bind, eof_not_digit] at h
    exact h.symm
  · omega
  · by_cases hd : isDigit x
    · simp [parser.getNum, hp, hn, bind, Except.bind, hd] at h
    · simp [parser.getNum, hp, bind, Except.bind, hd] at h
      exact h.symm

theorem match_ok (p : parser) (m : lexeme) (p' : parser) (h : p.match_ m = .ok p') :
    (p' = p ∧ m = eof ∧ (p.input.length : Int) ≤ p.pos) ∨
    (movedBy 1 p p' ∧ p'.tree = p.tree ∧ p'.savedTree = p.savedTree) := by
  rcases cursor_cases p with ⟨hge, hp, hn⟩ | ⟨_, hp, _⟩ | ⟨h0, hlt, x, _, hp, hn⟩
  · by_cases hm : eof = m
    · simp only [parser.match_, hp, hn, bind, Except.bind, hm, if_true, Except.ok.injEq] at h
      exact .inl ⟨h.symm, hm.symm, hge⟩
    · simp [parser.match_, hp, bind, Except.bind, hm] at h
  · simp [parser.match_, hp, bind, Except.bind] at h
  · by_cases hm : x = m
    · simp only [parser.match_, hp, hn, bind, Except.bind, hm, if_true, Except.ok.injEq] at h
      subst h
      exact .inr ⟨movedBy_mk p 1 _ _ h0 (by omega), rfl, rfl⟩
    · simp [parser.match_, hp, bind, Except.bind, hm] at h

theorem term_ok (p p' : parser) (h : p.term = .ok p') :
    movedBy 1 p p' ∧ p'.savedTree = p.savedTree ∧ p'.tree.isLeaf = true := by
  cases hg : p.getNum with
  | error e => simp [parser.term, hg, bind, Except.bind] at h
  | ok r =>
    obtain ⟨n, q⟩ := r
    obtain ⟨⟨a1, a2, a3, a4, a5⟩, _, hs, hl⟩ := getNum_ok p n q hg
    simp only [parser.term, hg, bind, Except.bind, Except.ok.injEq] at h
    subst h
    exact ⟨⟨a1, a2, a3, a4, a5⟩, hs, hl⟩

theorem add_ne_eof : Expr.add ≠ eof := by decide

theorem subtract_ne_eof : Expr.subtract ≠ eof := by decide

theorem add_ok (p p' : parser) (h : p.add = .ok p') : movedBy 2 p p' := by
  cases hm : p.match_ Expr.add with
  | error e => simp [parser.add, hm, bind, Except.bind] at h
  | ok q =>
    cases ht : q.term with
    | error e => simp [parser.add, hm, ht, bind, Except.bind] at h
    | ok r =>
      simp only [parser.add, hm, ht, bind, Except.bind, Except.ok.injEq] at h
      rcases match_ok p _ q hm with ⟨_, he, _⟩ | ⟨h1, _, _⟩
      · exact absurd he add_ne_eof
      · obtain ⟨a1, a2, a3, a4, a5⟩ := movedBy_trans 1 1 p q r h1 (term_ok q r ht).1
        subst h
        exact ⟨a1, a2, a3, a4, a5⟩

theorem subtract_ok (p p' : parser) (h : p.subtract = .ok p') : movedBy 2 p p' := by
  cases hm : p.match_ Expr.subtract with
  | error e => simp [parser.subtract, hm, bind, Except.bind] at h
  | ok q =>
    cases ht : q.term with
    | error e => simp [parser.subtract, hm, ht, bind, Except.bind] at h
    | ok r =>
      simp only [parser.subtract, hm, ht, bind, Except.bind, Except.ok.injEq] at h
      rcases match_ok p _ q hm with ⟨_, he, _⟩ | ⟨h1, _, _⟩
      · exact absurd he subtract_ne_eof
      · obtain ⟨a1, a2, a3, a4, a5⟩ := movedBy_trans 1 1 p q r h1 (term_ok q r ht).1
        subst h
        exact ⟨a1, a2, a3, a4, a5⟩

theorem peek_ok (p : parser) (x : lexeme) (p' : parser) (h : p.peek = .ok (x, p')) :
    p' = p := by
  rcases cursor_cases p with ⟨_, hp, _⟩ | ⟨_, hp, _⟩ | ⟨_, _, y, _, hp, _⟩ <;>
    rw [hp] at h
  · simp only [Except.ok.injEq, Prod.mk.injEq] at h; exact h.2.symm
  · cases h
  · simp only [Except.ok.injEq, Prod.mk.injEq] at h; exact h.2.symm

theorem loopBody_ok (p p' : parser) (h : p.loopBody = .ok p') : movedBy 2 p p' := by
  cases hp : (⟨p.input, p.pos, p.stack, p.tree, p.tree⟩ : parser).peek with
  | error e => simp [parser.loopBody, hp, bind, Except.bind] at h
  | ok r =>
    obtain ⟨x, q⟩ := r
    have hq := peek_ok _ x q hp
    subst hq
    simp only [parser.loopBody, hp, bind, Except.bind] at h
    by_cases ha : x = Expr.add
    · rw [if_pos ha] at h
      exact add_ok ⟨p.input, p.pos, p.stack, p.tree, p.tree⟩ p' h
    · rw [if_neg ha] at h
      by_cases hs : x = Expr.subtract
      · rw [if_pos hs] at h
        exact subtract_ok ⟨p.input, p.pos, p.stack, p.tree, p.tree⟩ p' h
      · rw [if_neg hs] at h
        cases h

/-- The loop of `expression` is: evaluate the condition, and while it holds
run `loopBody` and start over. -/
theorem expressionLoop_unfold (fuel : Nat) (p : parser) :
    p.expressionLoop (fuel + 1) =
      match p.loopCond with
      | .error e => .error e
      | .ok (c, q) =>
        if c then
          match q.loopBody with
          | .error e => .error e
          | .ok r => r.expressionLoop fuel
        else .ok q := by
  cases hc : p.loopCond with
  | error e => simp only [parser.expressionLoop, hc, bind, Except.bind]
  | ok r =>
    obtain ⟨c, q⟩ := r
    cases c with
    | false => simp [parser.expressionLoop, hc, bind, Except.bind]
    | true =>
      simp only [parser.expressionLoop, hc, bind, Except.bind, if_true, parser.loopBody]
      cases hp : (⟨q.input, q.pos, q.stack, q.tree, q.tree⟩ : parser).peek with
      | error e => rfl
      | ok r =>
        obtain ⟨x, q'⟩ := r
        simp only
        by_cases ha : x = Expr.add
        · simp only [ha, if_true]
          cases q'.add <;> rfl
        · by_cases hs : x = Expr.subtract
          · simp only [ha, if_false]
            simp only [hs, if_true]
            cases q'.subtract <;> rfl
          · simp only [ha, hs, if_false]
            cases q'.peek <;> rfl

theorem walk_error_digit (p : parser) (rest : List lexeme) (e : Failure)
    (h : walk p rest = .error e) : e = .digitExpected := by
  rcases shape rest with ⟨pairs, tail, h1, h2, h3⟩ | ⟨pairs, o, tail, h1, h2, h3, h4⟩
  · obtain ⟨q, e1, _⟩ := walk_pairs pairs tail p h2 h3
    rw [← h1, h] at e1
    cases e1
  · have e1 := walk_dangling pairs o tail p h2 h3 h4
    rw [← h1, h] at e1
    simp only [Except.error.injEq] at e1
    exact e1

theorem walk_ok_moved (p : parser) (rest : List lexeme) (p' : parser)
    (h : walk p rest = .ok p') :
    ∃ k : Nat, p'.input = p.input ∧ p'.stack = p.stack ∧ p'.pos = p.pos + 2 * k ∧
      2 * k ≤ rest.length := by
  rcases shape rest with ⟨pairs, tail, h1, h2, h3⟩ | ⟨pairs, o, tail, h1, h2, h3, h4⟩
  · obtain ⟨q, e1, e2, e3, e4, _⟩ := walk_pairs pairs tail p h2 h3
    rw [← h1, h] at e1
    simp only [Except.ok.injEq] at e1
    subst e1
    refine ⟨pairs.length, e2, e4, e3, ?_⟩
    rw [h1, List.length_append, length_opsDigits]
    omega
  · have e1 := walk_dangling pairs o tail p h2 h3 h4
    rw [← h1, h] at e1
    cases e1

/-- The sharp budget: half the number of lexemes behind the cursor, plus one. -/
theorem expressionLoop_eq_walk_half (fuel : Nat) :
    ∀ (p : parser) (pre rest : List lexeme), p.input = pre ++ rest → p.pos = pre.length →
      rest.length / 2 < fuel → p.expressionLoop fuel = walk p rest := by
  induction fuel with
  | zero => intro p pre rest _ _ h; omega
  | succ fuel ih =>
    intro p pre rest hin hpos hfuel
    rw [expressionLoop_succ fuel p pre rest hin hpos]
    match rest, hin, hfuel with
    | [], _, _ => simp [walk]
    | [o], _, _ => simp [walk]
    | o :: d :: rest, hin, hfuel =>
      have := ih ⟨p.input, p.pos + 2, p.stack, node.mk o [p.tree, node.mk d []], p.tree⟩
        (pre ++ [o, d]) rest (by simp [hin]) (by simp [hpos])
        (by simp only [List.length_cons] at hfuel; omega)
      simp only [walk, this]

/-- In a state whose cursor lies within the input, the loop computes `walk`
on the lexemes from the cursor on. -/
theorem expressionLoop_in_range (fuel : Nat) (p : parser) (h0 : 0 ≤ p.pos)
    (hle : p.pos ≤ (p.input.length : Int))
    (hfuel : (p.input.length - p.pos.toNat) / 2 < fuel) :
    p.expressionLoop fuel = walk p (p.input.drop p.pos.toNat) := by
  apply expressionLoop_eq_walk_half fuel p (p.input.take p.pos.toNat)
  · rw [List.take_append_drop]
  · rw [List.length_take]; omega
  · rw [List.length_drop]; exact hfuel

theorem term_error (p : parser) (e : Failure) (h : p.term = .error e) :
    e = .digitExpected ∨ e = .indexOutOfRange := by
  cases hg : p.getNum with
  | ok r => simp [parser.term, hg, bind, Except.bind] at h
  | error e' =>
    simp only [parser.term, hg, bind, Except.bind, Except.error.injEq] at h
    subst h
    rcases cursor_cases p with ⟨_, hp, _⟩ | ⟨_, hp, _⟩ | ⟨h0, _, _⟩
    · simp [parser.getNum, hp, bind, Except.bind, eof_not_digit] at hg
      exact .inl hg.symm
    · simp [parser.getNum, hp, bind, Except.bind] at hg
      exact .inr hg.symm
    · exact .inl (getNum_error p _ hg h0)

/-- After a successful `term`, `expression` is `walk` on the lexemes behind
the cursor: the budget `len(input) + 1` is never exhausted. -/
theorem expression_eq_walk (p q : parser) (h : p.term = .ok q) :
    p.expression = walk q (q.input.drop q.pos.toNat) := by
  obtain ⟨⟨a1, _, a3, a4, a5⟩, _, _⟩ := term_ok p q h
  simp only [parser.expression, h, bind, Except.bind]
  apply expressionLoop_in_range
  · omega
  · rw [a1, a3]; exact a5
  · have : (q.input.length - q.pos.toNat) / 2 ≤ q.input.length - q.pos.toNat :=
      Nat.div_le_self _ _
    omega

theorem expression_ok (p p' : parser) (h : p.expression = .ok p') :
    p'.input = p.input ∧ p'.stack = p.stack ∧ p.pos + 1 ≤ p'.pos ∧ 0 ≤ p.pos ∧
      p'.pos ≤ (p.input.length : Int) := by
  cases ht : p.term with
  | error e => simp [parser.expression, ht, bind, Except.bind] at h
  | ok q =>
    obtain ⟨⟨a1, a2, a3, a4, a5⟩, _, _⟩ := term_ok p q ht
    rw [expression_eq_walk p q ht] at h
    obtain ⟨k, b1, b2, b3, b4⟩ := walk_ok_moved q _ p' h
    rw [List.length_drop, a1] at b4
    refine ⟨by rw [b1, a1], by rw [b2, a2], by omega, a4, ?_⟩
    omega

theorem expression_error (p : parser) (e : Failure) (h : p.expression = .error e) :
    e = .digitExpected ∨ e = .indexOutOfRange := by
  cases ht : p.term with
  | error e' =>
    simp only [parser.expression, ht, bind, Except.bind, Except.error.injEq] at h
    subst h
    exact term_error p _ ht
  | ok q =>
    rw [expression_eq_walk p q ht] at h
    exact .inl (walk_error_digit q _ e h)

theorem parse_ok_general (p : parser) (t : node) (p' : parser)
    (h : p.parse = .ok (t, p')) :
    p'.input = p.input ∧ p'.stack = p.stack ∧ p.pos ≤ p'.pos ∧
      (p.pos ≤ (p.input.length : Int) → p'.pos ≤ (p.input.length : Int)) := by
  cases hp : p.peek with
  | error e => simp [parser.parse, hp, bind, Except.bind] at h
  | ok r =>
    obtain ⟨x, q⟩ := r
    have hq := peek_ok p x q hp
    subst hq
    simp only [parser.parse, hp, bind, Except.bind] at h
    by_cases hx : x = eof
    · rw [if_pos hx] at h
      simp only [Except.ok.injEq, Prod.mk.injEq] at h
      rw [← h.2]
      exact ⟨rfl, rfl, le_refl _, fun hle => hle⟩
    · rw [if_neg hx] at h
      cases he : q.expression with
      | error e => simp [he] at h
      | ok r =>
        simp only [he, Except.ok.injEq, Prod.mk.injEq] at h
        obtain ⟨b1, b2, b3, _, b5⟩ := expression_ok q r he
        rw [← h.2]
        exact ⟨b1, b2, by omega, fun _ => b5⟩

theorem parse_error_general (p : parser) (e : Failure) (h : p.parse = .error e) :
    e = .digitExpected ∨ e = .indexOutOfRange := by
  rcases cursor_cases p with ⟨_, hp, _⟩ | ⟨_, hp, _⟩ | ⟨_, _, x, _, hp, _⟩
  · simp [parser.parse, hp, bind, Except.bind] at h
  · simp only [parser.parse, hp, bind, Except.bind, Except.error.injEq] at h
    exact .inr h.symm
  · simp only [parser.parse, hp, bind, Except.bind] at h
    by_cases hx : x = eof
    · simp [hx] at h
    · rw [if_neg hx] at h
      cases he : p.expression with
      | ok r => simp [he] at h
      | error e' =>
        simp only [he, Except.error.injEq] at h
        subst h
        exact expression_error p _ he

theorem cursorInvariant_of_movedBy (k : Int) (p p' : parser) (hk : 0 ≤ k)
    (h : movedBy k p p') : cursorInvariant p p' := by
  obtain ⟨a1, _, a3, a4, a5⟩ := h
  refine ⟨a1, by omega, by omega, ?_⟩
  rw [a1, a3]; exact a5

theorem match_peeked (p : parser) (m : lexeme) (h : p.peek = .ok (m, p)) :
    ∃ p', p.match_ m = .ok p' := by
  rcases cursor_cases p with ⟨_, hp, hn⟩ | ⟨_, hp, _⟩ | ⟨_, _, x, _, hp, hn⟩
  · rw [hp] at h
    simp only [Except.ok.injEq, Prod.mk.injEq, and_true] at h
    subst h
    exact ⟨p, by simp only [parser.match_, hp, hn, bind, Except.bind, if_true]⟩
  · rw [hp] at h; cases h
  · rw [hp] at h
    simp only [Except.ok.injEq, Prod.mk.injEq, and_true] at h
    subst h
    exact ⟨⟨p.input, p.pos + 1, p.stack, p.tree, p.savedTree⟩,
      by simp only [parser.match_, hp, hn, bind, Except.bind, if_true]⟩

theorem parse_error_fresh (s : List lexeme) (e : Failure)
    (h : (newParser s).parse = .error e) : e = .digitExpected := by
  cases s with
  | nil => rw [parse_nil] at h; cases h
  | cons x rest =>
    rw [parse_cons] at h
    by_cases hx : x = eof
    · rw [if_pos hx] at h; cases h
    · rw [if_neg hx] at h
      by_cases hd : isDigit x
      · rw [if_pos hd] at h
        cases hw : walk ⟨x :: rest, 1, [], node.mk x [], node.nil⟩ rest with
        | ok q => rw [hw] at h; cases h
        | error e' =>
          rw [hw] at h
          simp only [Except.error.injEq] at h
          subst h
          exact walk_error_digit _ _ _ hw
      · rw [if_neg hd] at h
        simp only [Except.error.injEq] at h
        exact h.symm

/-! ## Rendering through pointers -/

mutual
/-- Rendering through a pointer that represents the tree `t` gives what
`indentedString` gives on `t`, and leaves the memory as it was. -/
theorem heapIndentedString_eq : ∀ (t : node) (fuel : Nat) (h : Heap) (n : Ptr) (indent : Nat),
    represents h n t = true → t.depth ≤ fuel →
    heapIndentedString fuel h n indent = (t.indentedString indent).map (fun s => (s, h))
  | .nil, fuel, h, n, indent, hr, _ => by
    cases n with
    | some a => simp [represents] at hr
    | none => cases fuel <;> rfl
  | .mk l cs, fuel, h, n, indent, hr, hf => by
    cases n with
    | none => simp [represents] at hr
    | some a =>
      cases hc : h[a]? with
      | none => simp [represents, hc] at hr
      | some c =>
        simp only [represents, hc, Bool.and_eq_true, decide_eq_true_eq] at hr
        cases fuel with
        | zero => simp only [node.depth] at hf; omega
        | succ f =>
          have ih := heapIndentedChildren_eq cs f h c.children indent "" hr.2
            (by simp only [node.depth] at hf; omega)
          simp only [heapIndentedString, hc, ih, node.indentedString, bind, Except.bind]
          cases node.indentedChildren cs indent "" with
          | error e => rfl
          | ok r => simp only [Except.map, hr.1]
theorem heapIndentedChildren_eq : ∀ (cs : List node) (fuel : Nat) (h : Heap) (ns : List Ptr)
    (indent : Nat) (acc : String),
    representsAll h ns cs = true → node.depthAll cs ≤ fuel →
    heapIndentedChildren (heapIndentedString fuel) h ns indent acc =
      (node.indentedChildren cs indent acc).map (fun s => (s, h))
  | [], fuel, h, ns, indent, acc, hr, _ => by
    cases ns with
    | nil => rfl
    | cons n ns => simp [representsAll] at hr
  | c :: cs, fuel, h, ns, indent, acc, hr, hf => by
    cases ns with
    | nil => simp [representsAll] at hr
    | cons n ns =>
      simp only [representsAll, Bool.and_eq_true] at hr
      simp only [node.depthAll] at hf
      have ih1 := heapIndentedString_eq c fuel h n (indent + 1) hr.1 (by omega)
      simp only [heapIndentedChildren, ih1, node.indentedChildren, bind, Except.bind]
      cases hcr : c.indentedString (indent + 1) with
      | error e => rfl
      | ok r =>
        simp only [Except.map]
        exact heapIndentedChildren_eq cs fuel h ns indent (acc ++ "\n" ++ r) hr.2 (by omega)
end

theorem heapString_eq (t : node) (fuel : Nat) (h : Heap) (n : Ptr)
    (hr : represents h n t = true) (hf : t.depth ≤ fuel) :
    heapString fuel h n = (t.String).map (fun s => (s, h)) := by
  simp only [heapString, heapIndentedString_eq t fuel h n 0 hr hf, node.String, bind,
    Except.bind]
  cases t.indentedString 0 <;> rfl

/-! ## The claims -/

/-- C1: left-associative fold. For every digit lexeme `d0` and every list of
pairs `(o1, d1), ..., (on, dn)` of an operator `"+"`/`"-"` and a digit lexeme,
`newNode [d0, o1, d1, ..., on, dn]` returns, without failure, the tree obtained
by folding from the left: start with `leaf(d0)` and replace the tree `t` by
`node(oi, [t, leaf(di)])` for `i = 1..n`. -/
theorem newNode_left_fold (d0 : lexeme) (pairs : List (lexeme × lexeme))
    (h0 : isDigit d0) (hp : ∀ od ∈ pairs, isOp od.1 ∧ isDigit od.2) :
    newNode (d0 :: opsDigits pairs) =
      .ok (pairs.foldl (fun t od => node.mk od.1 [t, node.mk od.2 []]) (node.mk d0 [])) := by
  obtain ⟨p', h1, _, _, _, h5⟩ := parse_pairs d0 pairs [] h0 hp (by simp)
  rw [List.append_nil] at h1
  rw [newNode_of_parse _ _ _ h1, h5]
  rfl

/-- Witness for C1: the input `["1","+","2","-","3"]` of the test gives
`node("-", [node("+", [leaf 1, leaf 2]), leaf 3])`. -/
theorem newNode_left_fold_witness :
    newNode ["1", "+", "2", "-", "3"] =
      .ok (node.mk "-" [node.mk "+" [node.mk "1" [], node.mk "2" []], node.mk "3" []]) :=
  newNode_left_fold "1" [("+", "2"), ("-", "3")] (by decide) (by decide)

/-- C3: for the empty input, `newNode` and `parse` return the "no expression"
result (nil) and do not fail. -/
theorem newNode_empty :
    newNode [] = .ok node.nil ∧ (newParser []).parse = .ok (node.nil, newParser []) :=
  ⟨rfl, rfl⟩

/-- C4: for every single digit lexeme `d`, `newNode [d]` returns, without
failure, a leaf node whose label is `d` and whose children list is empty. -/
theorem newNode_single_digit (d : lexeme) (h : isDigit d) :
    newNode [d] = .ok (node.mk d []) := by
  rw [newNode_cons, if_neg (digit_ne_eof d h), if_pos h]
  rfl

/-- Witness for C4 at the digit `"7"`. -/
theorem newNode_single_digit_witness :
    isDigit "7" ∧ newNode ["7"] = .ok (node.mk "7" []) :=
  ⟨by decide, newNode_single_digit "7" (by decide)⟩

/-- C2, counterexample: `["1","*","2"]` is not derivable from the grammar, yet
`parse` returns the leaf `1` with the cursor at position 1 of 3. -/
theorem parse_trailing_counterexample :
    isExpression ["1", "*", "2"] = false ∧
    (newParser ["1", "*", "2"]).parse =
      .ok (node.mk "1" [], ⟨["1", "*", "2"], 1, [], node.mk "1" [], node.nil⟩) ∧
    (1 : Int) ≠ (["1", "*", "2"] : List lexeme).length :=
  ⟨by decide, rfl, by decide⟩

/-- C2, amended: whenever `parse` returns a tree, the input is unchanged, the
cursor `pos` lies within the input, the consumed prefix `input[0:pos]` is
derivable from the grammar, the symbol at the cursor (if any) is neither `"+"`
nor `"-"`, and the tree is the one `newNode` returns for the consumed prefix
alone. A non-empty input that does not start with the sentinel and in which
every grammar-derivable prefix is followed by an operator fails with
`digit expected`. -/
theorem parse_tree_of_consumed_input (s : List lexeme) :
    (∀ t p', (newParser s).parse = .ok (t, p') → t ≠ node.nil →
      p'.input = s ∧ 0 ≤ p'.pos ∧ p'.pos ≤ s.length ∧
      isExpression (s.take p'.pos.toNat) = true ∧
      (∀ o, s[p'.pos.toNat]? = some o → ¬ isOp o) ∧
      newNode (s.take p'.pos.toNat) = .ok t) ∧
    (s ≠ [] → s.head? ≠ some eof →
      (∀ k, isExpression (s.take k) = true → ∃ o, s[k]? = some o ∧ isOp o) →
      (newParser s).parse = .error .digitExpected) := by
  constructor
  · intro t p' h ht
    obtain ⟨d0, pairs, tail, hs, h0, hv, htail, e1, e2, _, e4⟩ := parse_ok_shape s t p' h ht
    have hnat : p'.pos.toNat = 1 + 2 * pairs.length := by rw [e2]; omega
    rw [hnat]
    refine ⟨e1, by rw [e2]; omega, ?_, ?_, ?_, ?_⟩
    · rw [e2, hs]
      simp only [List.length_cons, List.length_append, length_opsDigits]
      push_cast; omega
    · rw [hs, take_expression]
      simp [isExpression, h0, isExpressionTail_opsDigits pairs hv]
    · rw [hs, getElem?_expression]; exact htail
    · rw [hs, take_expression, e4]
      obtain ⟨q, hq, _, _, _, hq5⟩ := parse_pairs d0 pairs [] h0 hv (by simp)
      rw [List.append_nil] at hq
      rw [newNode_of_parse _ _ _ hq, hq5]
  · intro hne hhead hall
    cases s with
    | nil => exact absurd rfl hne
    | cons x rest =>
      have hx : x ≠ eof := by
        intro hx; apply hhead; rw [hx]; rfl
      by_cases hd : isDigit x
      · rcases shape rest with ⟨pairs, tail, h1, h2, h3⟩ | ⟨pairs, o, tail, h1, h2, h3, h4⟩
        · exfalso
          obtain ⟨o, ho1, ho2⟩ := hall (1 + 2 * pairs.length) (by
            rw [h1, take_expression]
            simp [isExpression, hd, isExpressionTail_opsDigits pairs h2])
          rw [h1, getElem?_expression] at ho1
          exact h3 o ho1 ho2
        · rw [h1]; exact parse_dangling x pairs o tail hd h2 h3 h4
      · rw [parse_cons, if_neg hx, if_neg hd]

/-- Witness for the amended C2 at `["1","*","2"]`: the tree returned is the
leaf `1`, the consumed prefix `["1"]` is derivable, and `"*"` at the cursor is
not an operator of the loop. -/
theorem parse_tree_of_consumed_input_witness :
    ((⟨["1", "*", "2"], 1, [], node.mk "1" [], node.nil⟩ : parser).pos ≤
      (["1", "*", "2"] : List lexeme).length) ∧
    isExpression ((["1", "*", "2"] : List lexeme).take 1) = true ∧
    newNode ((["1", "*", "2"] : List lexeme).take 1) = .ok (node.mk "1" []) :=
  have h := (parse_tree_of_consumed_input ["1", "*", "2"]).1 (node.mk "1" [])
    ⟨["1", "*", "2"], 1, [], node.mk "1" [], node.nil⟩ rfl (by intro h; cases h)
  ⟨h.2.2.1, h.2.2.2.1, h.2.2.2.2.2⟩

/-- C5, counterexample: the non-empty input `["."]` starts with a lexeme that
is not a digit, and `parse` returns nil instead of failing. -/
theorem parse_sentinel_counterexample :
    ¬ isDigit "." ∧ newNode ["."] = .ok node.nil ∧
    (newParser ["."]).parse = .ok (node.nil, newParser ["."]) :=
  ⟨by decide, rfl, rfl⟩

/-- C5, amended: for every non-empty input whose first symbol is neither a
digit lexeme nor the sentinel lexeme `"."`, `parse` fails with
`digit expected`; it returns neither a tree nor nil. -/
theorem parse_non_digit_first (x : lexeme) (rest : List lexeme)
    (hd : ¬ isDigit x) (hx : x ≠ eof) :
    (newParser (x :: rest)).parse = .error .digitExpected ∧
    newNode (x :: rest) = .error .digitExpected := by
  have h : (newParser (x :: rest)).parse = .error .digitExpected := by
    rw [parse_cons, if_neg hx, if_neg hd]
  exact ⟨h, newNode_of_parse_error _ _ h⟩

/-- Witness for the amended C5 at `["+","1"]`. -/
theorem parse_non_digit_first_witness :
    ¬ isDigit "+" ∧ "+" ≠ eof ∧ newNode ["+", "1"] = .error .digitExpected :=
  ⟨by decide, by decide, (parse_non_digit_first "+" ["1"] (by decide) (by decide)).2⟩

/-- C6: trailing operator. For every grammar-conforming `d0 o1 d1 ... on dn`
followed by one further `"+"` or `"-"` and nothing else, `parse` fails with
`digit expected` and returns no tree; the failure is raised for the right
operand: in any state over this input with the cursor at the trailing
operator, `match` of the operator succeeds and the `term` after it panics. -/
theorem parse_trailing_operator (d0 : lexeme) (pairs : List (lexeme × lexeme)) (o : lexeme)
    (h0 : isDigit d0) (hv : ∀ od ∈ pairs, isOp od.1 ∧ isDigit od.2) (ho : isOp o) :
    (newParser (d0 :: (opsDigits pairs ++ [o]))).parse = .error .digitExpected ∧
    newNode (d0 :: (opsDigits pairs ++ [o])) = .error .digitExpected ∧
    (∀ p : parser, p.input = d0 :: (opsDigits pairs ++ [o]) →
      p.pos = 1 + 2 * pairs.length →
      ∃ p1, p.match_ o = .ok p1 ∧ p1.term = .error .digitExpected) := by
  have h := parse_dangling d0 pairs o [] h0 hv ho (by simp)
  refine ⟨h, newNode_of_parse_error _ _ h, ?_⟩
  intro p hin hpos
  have hin' : p.input = (d0 :: opsDigits pairs) ++ o :: [] := by rw [hin]; simp
  have hpos' : p.pos = ((d0 :: opsDigits pairs).length : Int) := by
    rw [hpos]; simp only [List.length_cons, length_opsDigits]; push_cast; omega
  refine ⟨_, match_at p (d0 :: opsDigits pairs) o [] hin' hpos', ?_⟩
  apply term_end
  simp only [hin, hpos, List.length_cons, List.length_append, length_opsDigits,
    List.length_nil]
  push_cast; omega

/-- Witness for C6 at `["1","+"]`. -/
theorem parse_trailing_operator_witness :
    isDigit "1" ∧ isOp "+" ∧ newNode ["1", "+"] = .error .digitExpected :=
  ⟨by decide, by decide,
    (parse_trailing_operator "1" [] "+" (by decide) (by simp) (by decide)).2.1⟩

/-- C7: arity invariant of the output. For every input on which `parse`
returns a tree, every node of the tree, at any depth, is a non-nil node that
is either labelled with a digit and has no children, or labelled `"+"` or
`"-"` and has exactly two children. -/
theorem parse_arity_invariant (s : List lexeme) (t : node) (p' : parser)
    (h : (newParser s).parse = .ok (t, p')) (ht : t ≠ node.nil) :
    t.arityOk = true := by
  obtain ⟨d0, pairs, tail, _, h0, hv, _, _, _, _, e4⟩ := parse_ok_shape s t p' h ht
  rw [e4]
  exact foldPairs_arityOk pairs hv _ (by simp [node.arityOk, node.arityOkAll, h0])

/-- Witness for C7 at `["1","+","2","-","3"]`. -/
theorem parse_arity_invariant_witness :
    (node.mk "-" [node.mk "+" [node.mk "1" [], node.mk "2" []], node.mk "3" []]).arityOk
      = true :=
  parse_arity_invariant ["1", "+", "2", "-", "3"]
    (node.mk "-" [node.mk "+" [node.mk "1" [], node.mk "2" []], node.mk "3" []])
    ⟨["1", "+", "2", "-", "3"], 5, [],
      node.mk "-" [node.mk "+" [node.mk "1" [], node.mk "2" []], node.mk "3" []],
      node.mk "+" [node.mk "1" [], node.mk "2" []]⟩
    rfl (by intro h; cases h)

/-- C8: fails-iff characterisation. For every input `s` that does not contain
the sentinel lexeme, `parse` fails if and only if `s` is non-empty and there
is an even `k` with `0 ≤ k ≤ len(s)` such that `s[0], s[2], ..., s[k-2]` are
digits, `s[1], s[3], ..., s[k-1]` are each `"+"` or `"-"`, and either
`k = len(s)` with `k > 0` or `s[k]` is not a digit; when it does not fail it
returns normally. -/
theorem parse_fails_iff (s : List lexeme) (hs : eof ∉ s) :
    ((∃ e, newNode s = .error e) ↔
      (s ≠ [] ∧ ∃ k, k % 2 = 0 ∧ k ≤ s.length ∧
        (∀ i, i < k → i % 2 = 0 → ∃ x, s[i]? = some x ∧ isDigit x) ∧
        (∀ i, i < k → i % 2 = 1 → ∃ x, s[i]? = some x ∧ isOp x) ∧
        ((k = s.length ∧ 0 < k) ∨ ∃ x, s[k]? = some x ∧ ¬ isDigit x))) ∧
    ((¬ ∃ e, newNode s = .error e) → ∃ t, newNode s = .ok t) := by
  constructor
  · cases s with
    | nil =>
      constructor
      · rintro ⟨e, h⟩
        have h0 : newNode [] = .ok node.nil := rfl
        rw [h0] at h
        cases h
      · rintro ⟨h, _⟩; exact absurd rfl h
    | cons x rest =>
      have hx : x ≠ eof := by
        intro h; apply hs; rw [h]; exact List.mem_cons_self _ _
      rw [newNode_error_iff x rest hx]
      constructor
      · rintro ⟨k, hk, hle, hev, hod, hlast⟩
        refine ⟨by simp, k, hk, hle, hev, hod, ?_⟩
        rcases hlast with h | h
        · left; refine ⟨h, ?_⟩; rw [h]; simp
        · right; exact h
      · rintro ⟨_, k, hk, hle, hev, hod, hlast⟩
        refine ⟨k, hk, hle, hev, hod, ?_⟩
        rcases hlast with h | h
        · left; exact h.1
        · right; exact h
  · intro h
    cases hn : newNode s with
    | error e => exact absurd ⟨e, hn⟩ h
    | ok t => exact ⟨t, rfl⟩

/-- Witness for C8 at `["1","+"]`: the input has no sentinel, and it fails
with `k = 2 = len(s)`. -/
theorem parse_fails_iff_witness :
    eof ∉ (["1", "+"] : List lexeme) ∧ ∃ e, newNode ["1", "+"] = .error e :=
  ⟨by decide,
    (parse_fails_iff ["1", "+"] (by decide)).1.2
      ⟨by simp, 2, rfl, le_refl _,
        fun i hi he => by
          have h0 : i = 0 := by omega
          subst h0
          exact ⟨"1", by simp, by decide⟩,
        fun i hi ho => by
          have h1 : i = 1 := by omega
          subst h1
          exact ⟨"+", by simp, by decide⟩,
        .inl ⟨rfl, by decide⟩⟩⟩

/-- C9: rendering layout. For every tree (no nil pointer in it) whose labels
contain no newline, `String()` returns `"---\n" + body + "\n---\n"` where
`body` is the lines of the tree joined by single `"\n"`: exactly one line per
node, in pre-order, the line of a node at depth `k` being `4 * k` spaces
followed by its label, and no line contains a newline. -/
theorem String_layout (t : node) (hwf : t.noNil = true) (hnl : t.labelsNoNewline = true) :
    t.String = .ok ("---\n" ++ String.intercalate "\n" (treeLines t 0) ++ "\n---\n") ∧
    (treeLines t 0).length = t.size ∧
    (∀ l ∈ treeLines t 0, '\n' ∉ l.data) := by
  refine ⟨?_, length_treeLines t 0, treeLines_no_newline t 0 hnl⟩
  simp only [node.String, indentedString_eq t 0 hwf, bind, Except.bind]

/-- Witness for C9 at the tree of `1+2-3`. -/
theorem String_layout_witness :
    (node.mk "-" [node.mk "+" [node.mk "1" [], node.mk "2" []], node.mk "3" []]).String =
      .ok ("---\n" ++ String.intercalate "\n" ["-", "    +", "        1", "        2", "    3"]
        ++ "\n---\n") :=
  (String_layout
    (node.mk "-" [node.mk "+" [node.mk "1" [], node.mk "2" []], node.mk "3" []])
    (by decide) (by decide)).1

/-- C10: rendering is deterministic. Let the pointer `n` represent the tree
`t` in the memory `h`, and let the budget cover the depth of `t`. Then
`String()` through `n` returns what `String()` returns on `t` and leaves the
memory as it was, so rendering does not change the tree; rendering a second
time, in the memory the first rendering left, returns the identical text; and
the text depends only on the labels and the structure: any pointer that
represents the same tree, in any memory, renders to the same text. On a tree
without nil pointers the result is a text, not a failure. -/
theorem String_deterministic (h : Heap) (n : Ptr) (t : node) (fuel : Nat)
    (hrep : represents h n t = true) (hfuel : t.depth ≤ fuel) :
    heapString fuel h n = (t.String).map (fun text => (text, h)) ∧
    (∀ text h1, heapString fuel h n = .ok (text, h1) →
      h1 = h ∧ heapString fuel h1 n = .ok (text, h1)) ∧
    (∀ (h' : Heap) (n' : Ptr) (fuel' : Nat), represents h' n' t = true → t.depth ≤ fuel' →
      ∀ text h1, heapString fuel h n = .ok (text, h1) →
        heapString fuel' h' n' = .ok (text, h')) ∧
    (t.noNil = true → ∃ text, heapString fuel h n = .ok (text, h)) := by
  have e := heapString_eq t fuel h n hrep hfuel
  refine ⟨e, ?_, ?_, ?_⟩
  · intro text h1 hs
    have hh : h1 = h := by
      rw [e] at hs
      cases ht : t.String with
      | error e' => rw [ht] at hs; cases hs
      | ok r =>
        rw [ht] at hs
        simp only [Except.map, Except.ok.injEq, Prod.mk.injEq] at hs
        exact hs.2.symm
    subst hh
    exact ⟨rfl, hs⟩
  · intro h' n' fuel' hrep' hfuel' text h1 hs
    rw [heapString_eq t fuel' h' n' hrep' hfuel']
    rw [e] at hs
    cases ht : t.String with
    | error e' => rw [ht] at hs; cases hs
    | ok r =>
      rw [ht] at hs
      simp only [Except.map, Except.ok.injEq, Prod.mk.injEq] at hs
      simp only [Except.map, hs.1]
  · intro hwf
    rw [e]
    have hs : t.String =
        .ok ("---\n" ++ String.intercalate "\n" (treeLines t 0) ++ "\n---\n") := by
      simp only [node.String, indentedString_eq t 0 hwf, bind, Except.bind]
    rw [hs]
    exact ⟨_, rfl⟩

/-- Witness for C10: the tree of `1+2` held at address 0 of one memory and at
address 2 of another, laid out differently; both render to the same text and
the memory is left as it was. -/
theorem String_deterministic_witness :
    heapString 2 [⟨"+", [some 1, some 2]⟩, ⟨"1", []⟩, ⟨"2", []⟩] (some 0) =
      .ok ("---\n+\n    1\n    2\n---\n",
        [⟨"+", [some 1, some 2]⟩, ⟨"1", []⟩, ⟨"2", []⟩]) ∧
    heapString 5 [⟨"2", []⟩, ⟨"1", []⟩, ⟨"+", [some 1, some 0]⟩] (some 2) =
      .ok ("---\n+\n    1\n    2\n---\n",
        [⟨"2", []⟩, ⟨"1", []⟩, ⟨"+", [some 1, some 0]⟩]) :=
  have w := String_deterministic [⟨"+", [some 1, some 2]⟩, ⟨"1", []⟩, ⟨"2", []⟩] (some 0)
    (node.mk "+" [node.mk "1" [], node.mk "2" []]) 2 (by decide) (by decide)
  ⟨w.1, w.2.2.1 [⟨"2", []⟩, ⟨"1", []⟩, ⟨"+", [some 1, some 0]⟩] (some 2) 5
    (by decide) (by decide) _ _ w.1⟩

/-- C11: strict left nesting. In every tree returned by `parse`, for any
input, the right child of every operator node is a digit leaf, and operator
nodes occur only as the root or as the left child of another operator node. -/
theorem parse_left_nested (s : List lexeme) (t : node) (p' : parser)
    (h : (newParser s).parse = .ok (t, p')) (ht : t ≠ node.nil) :
    t.leftNested = true := by
  obtain ⟨d0, pairs, tail, _, h0, hv, _, _, _, _, e4⟩ := parse_ok_shape s t p' h ht
  rw [e4]
  exact foldPairs_leftNested pairs hv _ (by simp [node.leftNested, h0])

/-- Witness for C11 at `["1","+","2","-","3"]`; the right-nested tree of
`1+(2-3)` is not strictly left nested. -/
theorem parse_left_nested_witness :
    (node.mk "-" [node.mk "+" [node.mk "1" [], node.mk "2" []], node.mk "3" []]).leftNested
      = true ∧
    (node.mk "+" [node.mk "1" [], node.mk "-" [node.mk "2" [], node.mk "3" []]]).leftNested
      = false :=
  ⟨parse_left_nested ["1", "+", "2", "-", "3"]
    (node.mk "-" [node.mk "+" [node.mk "1" [], node.mk "2" []], node.mk "3" []])
    ⟨["1", "+", "2", "-", "3"], 5, [],
      node.mk "-" [node.mk "+" [node.mk "1" [], node.mk "2" []], node.mk "3" []],
      node.mk "+" [node.mk "1" [], node.mk "2" []]⟩
    rfl (by intro h; cases h), by decide⟩

/-- C12: size bound. For every input on which `parse` returns a tree, the
number of nodes of the tree equals the final cursor position (the number of
symbols consumed), hence is at most `len(input)`, and the depth of the tree is
at most `len(input)`. -/
theorem parse_size_bound (s : List lexeme) (t : node) (p' : parser)
    (h : (newParser s).parse = .ok (t, p')) (ht : t ≠ node.nil) :
    (t.size : Int) = p'.pos ∧ t.size ≤ s.length ∧ t.depth ≤ s.length := by
  obtain ⟨d0, pairs, tail, hs, _, _, _, _, e2, _, e4⟩ := parse_ok_shape s t p' h ht
  have hsize : t.size = 1 + 2 * pairs.length := by
    rw [e4, foldPairs_size]; simp [node.size, node.sizeAll]
  have hdepth : t.depth = 1 + pairs.length := by
    rw [e4, foldPairs_depth pairs _ (by simp [node.depth, node.depthAll])]
    simp [node.depth, node.depthAll]
  have hlen : s.length = 1 + 2 * pairs.length + tail.length := by
    rw [hs]; simp only [List.length_cons, List.length_append, length_opsDigits]; omega
  refine ⟨?_, by omega, by omega⟩
  rw [e2, hsize]; push_cast; ring

/-- Witness for C12 at `["1","+","2","*","3"]`: three nodes, cursor at 3. -/
theorem parse_size_bound_witness :
    ((node.mk "+" [node.mk "1" [], node.mk "2" []]).size : Int) = 3 ∧
    (node.mk "+" [node.mk "1" [], node.mk "2" []]).size ≤ 5 ∧
    (node.mk "+" [node.mk "1" [], node.mk "2" []]).depth ≤ 5 :=
  parse_size_bound ["1", "+", "2", "*", "3"] (node.mk "+" [node.mk "1" [], node.mk "2" []])
    ⟨["1", "+", "2", "*", "3"], 3, [], node.mk "+" [node.mk "1" [], node.mk "2" []],
      node.mk "1" []⟩
    rfl (by intro h; cases h)

/-- C15: trailing symbols are silently ignored. For every grammar-conforming
`s = d0 o1 d1 ... on dn` and every `tail` that is empty or whose first symbol
is neither `"+"` nor `"-"`, `parse (s ++ tail)` does not fail and returns
exactly the tree that `parse s` returns. -/
theorem parse_ignores_tail (d0 : lexeme) (pairs : List (lexeme × lexeme)) (tail : List lexeme)
    (h0 : isDigit d0) (hv : ∀ od ∈ pairs, isOp od.1 ∧ isDigit od.2)
    (htail : ∀ x, tail.head? = some x → ¬ isOp x) :
    ∃ t, newNode (d0 :: opsDigits pairs) = .ok t ∧
      newNode ((d0 :: opsDigits pairs) ++ tail) = .ok t := by
  refine ⟨foldPairs (node.mk d0 []) pairs, ?_, ?_⟩
  · have h := newNode_expression d0 pairs [] h0 hv (by simp)
    rw [List.append_nil] at h
    exact h
  · exact newNode_expression d0 pairs tail h0 hv htail

/-- Witness for C15: `["1","2"]`, `["1","*","2"]` and `["1",")"]` all return
the leaf `1`, as `["1"]` does. -/
theorem parse_ignores_tail_witness :
    newNode ["1", "2"] = .ok (node.mk "1" []) ∧
    newNode ["1", "*", "2"] = .ok (node.mk "1" []) ∧
    newNode ["1", ")"] = .ok (node.mk "1" []) ∧
    ∃ t, newNode ["1"] = .ok t ∧ newNode ["1", "*", "2"] = .ok t :=
  ⟨rfl, rfl, rfl,
    parse_ignores_tail "1" [] ["*", "2"] (by decide) (by simp) (by decide)⟩

/-- C16: round trip. For every grammar-conforming input `s`, `parse s`
returns a tree whose in-order traversal is exactly `s`; consequently two
grammar-conforming inputs with the same result of `parse` are equal. -/
theorem parse_inorder_roundtrip (s s' : List lexeme) (hs : isExpression s = true)
    (hs' : isExpression s' = true) :
    (∃ t, newNode s = .ok t ∧ t.inorder = s) ∧ (newNode s = newNode s' → s = s') := by
  have key : ∀ u : List lexeme, isExpression u = true →
      ∃ t, newNode u = .ok t ∧ t.inorder = u := by
    intro u hu
    obtain ⟨d0, pairs, rfl, h0, hv⟩ := expression_of_isExpression u hu
    have h := newNode_expression d0 pairs [] h0 hv (by simp)
    rw [List.append_nil] at h
    refine ⟨_, h, ?_⟩
    rw [foldPairs_inorder]
    rfl
  refine ⟨key s hs, fun heq => ?_⟩
  obtain ⟨t, h1, h2⟩ := key s hs
  obtain ⟨t', h1', h2'⟩ := key s' hs'
  rw [h1, h1'] at heq
  simp only [Except.ok.injEq] at heq
  rw [← h2, ← h2', heq]

/-- Witness for C16 at `["1","+","2","-","3"]` and `["1","-","2"]`. -/
theorem parse_inorder_roundtrip_witness :
    (∃ t, newNode ["1", "+", "2", "-", "3"] = .ok t ∧ t.inorder = ["1", "+", "2", "-", "3"]) ∧
    (newNode ["1", "+", "2", "-", "3"] = newNode ["1", "-", "2"] →
      (["1", "+", "2", "-", "3"] : List lexeme) = ["1", "-", "2"]) :=
  parse_inorder_roundtrip ["1", "+", "2", "-", "3"] ["1", "-", "2"] (by decide) (by decide)

/-- C17: `parse` returns nil exactly when the input is empty or its first
lexeme is `"."`, the value of the sentinel: for every input starting with
`"."`, whatever follows, it returns nil without failure, and for every other
non-empty input it either fails or returns a non-nil tree. -/
theorem parse_nil_iff (s : List lexeme) :
    (newNode s = .ok node.nil ↔ s = [] ∨ s.head? = some ".") ∧
    (∀ rest, (newParser ("." :: rest)).parse = .ok (node.nil, newParser ("." :: rest))) ∧
    (s ≠ [] → s.head? ≠ some "." →
      (∃ e, newNode s = .error e) ∨ (∃ t, newNode s = .ok t ∧ t ≠ node.nil)) := by
  have hne : ∀ x rest, x ≠ eof → ∀ t, newNode (x :: rest) = .ok t → t ≠ node.nil := by
    intro x rest hx t ht
    obtain ⟨p', hp⟩ := newNode_ok _ _ ht
    exact parse_cons_ne_nil x rest hx t p' hp
  refine ⟨?_, ?_, ?_⟩
  · cases s with
    | nil => exact ⟨fun _ => .inl rfl, fun _ => rfl⟩
    | cons x rest =>
      by_cases hx : x = eof
      · subst hx
        refine ⟨fun _ => .inr rfl, fun _ => ?_⟩
        rw [newNode_cons, if_pos rfl]
      · constructor
        · intro h
          exact absurd rfl (hne x rest hx _ h)
        · rintro (h | h)
          · cases h
          · simp only [List.head?_cons, Option.some.injEq] at h
            exact absurd h hx
  · intro rest
    have h := parse_cons "." rest
    rw [if_pos (show ("." : lexeme) = eof from rfl)] at h
    exact h
  · intro hs hhead
    cases s with
    | nil => exact absurd rfl hs
    | cons x rest =>
      have hx : x ≠ eof := by
        intro hx; apply hhead; rw [hx]; rfl
      cases hn : newNode (x :: rest) with
      | error e => exact .inl ⟨e, rfl⟩
      | ok t => exact .inr ⟨t, rfl, hne x rest hx t hn⟩

/-- Witness for C17 at `[".","1","+"]`, which returns nil although what
follows the sentinel is malformed, and at `["1"]`, which returns a tree. -/
theorem parse_nil_iff_witness :
    newNode [".", "1", "+"] = .ok node.nil ∧
    ((∃ e, newNode ["1"] = .error e) ∨ (∃ t, newNode ["1"] = .ok t ∧ t ≠ node.nil)) :=
  ⟨(parse_nil_iff [".", "1", "+"]).1.2 (.inr rfl),
    (parse_nil_iff ["1"]).2.2 (by simp) (by decide)⟩

/-- C13: reachable failures. For every input, a `parse` call on a fresh
parser can fail only with the `digit expected` panic of `getNum`: the
mismatch panic of `match`, the `+ or - expected` panic of `expression` and the
`parser stack underflow` panic of `pop` do not occur. `match` on the lexeme
that `peek` has just returned never panics, `expression` leaves the stack as
it was, and the stack is empty when `parse` returns. -/
theorem parse_failures (s : List lexeme) :
    (∀ e, (newParser s).parse = .error e → e = .digitExpected) ∧
    (∀ t p', (newParser s).parse = .ok (t, p') → p'.stack = [] ∧ p'.emptyStack = true) ∧
    (∀ (p : parser) (m : lexeme), p.peek = .ok (m, p) → ∃ p', p.match_ m = .ok p') ∧
    (∀ p p' : parser, p.expression = .ok p' → p'.stack = p.stack) := by
  refine ⟨parse_error_fresh s, ?_, match_peeked, fun p p' h => (expression_ok p p' h).2.1⟩
  intro t p' h
  have hs : p'.stack = [] := (parse_ok_general _ t p' h).2.1
  exact ⟨hs, by simp [parser.emptyStack, hs]⟩

/-- Witness for C13 at `["1","+","*"]`, which fails with `digit expected`. -/
theorem parse_failures_witness :
    (newParser ["1", "+", "*"]).parse = .error .digitExpected ∧
    (∀ e, (newParser ["1", "+", "*"]).parse = .error e → e = .digitExpected) :=
  ⟨rfl, (parse_failures ["1", "+", "*"]).1⟩

/-- C14: termination. For every input `parse` ends, by returning or by a Go
panic: the budget of the loop is never exhausted, from any state. The loop of
`expression` is the repetition of `loopBody` while the condition holds; each
completed `loopBody` advances the cursor by exactly two; and the loop run by
`expression` on a fresh parser does not exhaust a budget of
`(len(input) - 1) / 2 + 1` evaluations of its condition, that is, it completes
at most `(len(input) - 1) / 2` iterations, and a larger budget gives the same
result. -/
theorem parse_terminates (s : List lexeme) :
    (newParser s).parse ≠ .error .outOfFuel ∧
    (∀ p : parser, p.parse ≠ .error .outOfFuel ∧ p.expression ≠ .error .outOfFuel) ∧
    (∀ (fuel : Nat) (p : parser), p.expressionLoop (fuel + 1) =
      match p.loopCond with
      | .error e => .error e
      | .ok (c, q) =>
        if c then
          match q.loopBody with
          | .error e => .error e
          | .ok r => r.expressionLoop fuel
        else .ok q) ∧
    (∀ p p' : parser, p.loopBody = .ok p' → p'.pos = p.pos + 2) ∧
    (∀ p1, (newParser s).term = .ok p1 → ∀ fuel, (s.length - 1) / 2 + 1 ≤ fuel →
      p1.expressionLoop fuel = p1.expressionLoop ((s.length - 1) / 2 + 1) ∧
      p1.expressionLoop fuel ≠ .error .outOfFuel) := by
  have hall : ∀ p : parser, p.parse ≠ .error .outOfFuel ∧
      p.expression ≠ .error .outOfFuel := by
    intro p
    constructor
    · intro h
      rcases parse_error_general p _ h with h | h <;> cases h
    · intro h
      rcases expression_error p _ h with h | h <;> cases h
  refine ⟨(hall _).1, hall, expressionLoop_unfold, fun p p' h => (loopBody_ok p p' h).2.2.1, ?_⟩
  intro p1 ht fuel hfuel
  obtain ⟨⟨a1, _, a3, a4, a5⟩, _, _⟩ := term_ok _ p1 ht
  have hin : p1.input = s := a1
  have hpos : p1.pos = 1 := by rw [a3]; rfl
  have hlen : (1 : Int) ≤ (s.length : Int) := by
    have := a5
    simp only [newParser] at this
    omega
  have hb : (p1.input.length - p1.pos.toNat) / 2 < (s.length - 1) / 2 + 1 := by
    rw [hin, hpos]
    have : (1 : Int).toNat = 1 := rfl
    rw [this]
    omega
  have h1 := expressionLoop_in_range ((s.length - 1) / 2 + 1) p1 (by omega)
    (by rw [hin, hpos]; exact hlen) hb
  have h2 := expressionLoop_in_range fuel p1 (by omega)
    (by rw [hin, hpos]; exact hlen) (by omega)
  refine ⟨by rw [h1, h2], ?_⟩
  rw [h2]
  intro h
  have := walk_error_digit _ _ _ h
  cases this

/-- Witness for C14 at `["1","+","2"]`: with `len = 3` the loop needs a budget
of 2, one completed iteration, and ends with the cursor at 3. -/
theorem parse_terminates_witness :
    (⟨["1", "+", "2"], 1, [], node.mk "1" [], node.nil⟩ : parser).expressionLoop 7 =
      (⟨["1", "+", "2"], 1, [], node.mk "1" [], node.nil⟩ : parser).expressionLoop 2 ∧
    (⟨["1", "+", "2"], 1, [], node.mk "1" [], node.nil⟩ : parser).expressionLoop 7 ≠
      .error .outOfFuel :=
  (parse_terminates ["1", "+", "2"]).2.2.2.2
    ⟨["1", "+", "2"], 1, [], node.mk "1" [], node.nil⟩ rfl 7 (by decide)

/-- C18: cursor invariant. Started in a state with `0 ≤ pos ≤ len(input)`,
every one of `peek`, `nextLexeme`, `getNum`, `match`, `term`, `add`,
`subtract`, `expression` and `parse` that returns leaves the input unchanged,
does not decrease `pos`, and ends with `0 ≤ pos ≤ len(input)`. -/
theorem cursor_invariant (p : parser) (h0 : 0 ≤ p.pos)
    (hle : p.pos ≤ (p.input.length : Int)) :
    (∀ x p', p.peek = .ok (x, p') → cursorInvariant p p') ∧
    (∀ x p', p.nextLexeme = .ok (x, p') → cursorInvariant p p') ∧
    (∀ n p', p.getNum = .ok (n, p') → cursorInvariant p p') ∧
    (∀ m p', p.match_ m = .ok p' → cursorInvariant p p') ∧
    (∀ p', p.term = .ok p' → cursorInvariant p p') ∧
    (∀ p', p.add = .ok p' → cursorInvariant p p') ∧
    (∀ p', p.subtract = .ok p' → cursorInvariant p p') ∧
    (∀ p', p.expression = .ok p' → cursorInvariant p p') ∧
    (∀ t p', p.parse = .ok (t, p') → cursorInvariant p p') := by
  have hrefl : cursorInvariant p p := ⟨rfl, le_refl _, h0, hle⟩
  refine ⟨?_, ?_, ?_, ?_, ?_, ?_, ?_, ?_, ?_⟩
  · intro x p' h
    rw [peek_ok p x p' h]; exact hrefl
  · intro x p' h
    rcases cursor_cases p with ⟨_, _, hn⟩ | ⟨_, _, hn⟩ | ⟨_, hlt, y, _, _, hn⟩ <;>
      rw [hn] at h
    · simp only [Except.ok.injEq, Prod.mk.injEq] at h
      rw [← h.2]; exact hrefl
    · cases h
    · simp only [Except.ok.injEq, Prod.mk.injEq] at h
      rw [← h.2]
      exact cursorInvariant_of_movedBy 1 _ _ (by omega) (movedBy_mk p 1 _ _ h0 (by omega))
  · intro n p' h
    exact cursorInvariant_of_movedBy 1 _ _ (by omega) (getNum_ok p n p' h).1
  · intro m p' h
    rcases match_ok p m p' h with ⟨rfl, _, _⟩ | ⟨h1, _, _⟩
    · exact hrefl
    · exact cursorInvariant_of_movedBy 1 _ _ (by omega) h1
  · intro p' h
    exact cursorInvariant_of_movedBy 1 _ _ (by omega) (term_ok p p' h).1
  · intro p' h
    exact cursorInvariant_of_movedBy 2 _ _ (by omega) (add_ok p p' h)
  · intro p' h
    exact cursorInvariant_of_movedBy 2 _ _ (by omega) (subtract_ok p p' h)
  · intro p' h
    obtain ⟨a1, _, a3, _, a5⟩ := expression_ok p p' h
    exact ⟨a1, by omega, by omega, by rw [a1]; exact a5⟩
  · intro t p' h
    obtain ⟨a1, _, a3, a4⟩ := parse_ok_general p t p' h
    exact ⟨a1, a3, by omega, by rw [a1]; exact a4 hle⟩

/-- Witness for C18: `add` from the state with the cursor at 1 of
`["1","+","2"]` ends with the cursor at 3. -/
theorem cursor_invariant_witness :
    cursorInvariant ⟨["1", "+", "2"], 1, [], node.mk "1" [], node.mk "1" []⟩
      ⟨["1", "+", "2"], 3, [], node.mk "+" [node.mk "1" [], node.mk "2" []], node.mk "1" []⟩ :=
  (cursor_invariant ⟨["1", "+", "2"], 1, [], node.mk "1" [], node.mk "1" []⟩
    (by decide) (by decide)).2.2.2.2.2.1 _ rfl

/-- C19: lookahead and sentinel. In every state with `0 ≤ pos`: when
`pos < len(input)`, `peek` returns `input[pos]` and leaves the state as it is,
and `nextLexeme` returns the same lexeme and advances `pos` by exactly one,
changing nothing else; when `pos ≥ len(input)`, both return the sentinel and
leave the state, `pos` included, as it is. -/
theorem peek_nextLexeme_spec (p : parser) (h0 : 0 ≤ p.pos) :
    (p.pos < (p.input.length : Int) → ∃ x, p.input[p.pos.toNat]? = some x ∧
      p.peek = .ok (x, p) ∧
      p.nextLexeme = .ok (x, ⟨p.input, p.pos + 1, p.stack, p.tree, p.savedTree⟩)) ∧
    ((p.input.length : Int) ≤ p.pos →
      p.peek = .ok (eof, p) ∧ p.nextLexeme = .ok (eof, p)) := by
  rcases cursor_cases p with ⟨hge, hp, hn⟩ | ⟨hneg, _, _⟩ | ⟨_, hlt, x, hx, hp, hn⟩
  · exact ⟨fun h => by omega, fun _ => ⟨hp, hn⟩⟩
  · omega
  · exact ⟨fun _ => ⟨x, hx, hp, hn⟩, fun h => by omega⟩

/-- Witness for C19 at the fresh parser on `["1"]` and at its end. -/
theorem peek_nextLexeme_spec_witness :
    (∃ x, (["1"] : List lexeme)[(0 : Int).toNat]? = some x ∧
      (newParser ["1"]).peek = .ok (x, newParser ["1"]) ∧
      (newParser ["1"]).nextLexeme = .ok (x, ⟨["1"], 0 + 1, [], node.nil, node.nil⟩)) ∧
    (⟨["1"], 1, [], node.nil, node.nil⟩ : parser).peek =
      .ok (eof, ⟨["1"], 1, [], node.nil, node.nil⟩) :=
  ⟨(peek_nextLexeme_spec (newParser ["1"]) (by decide)).1 (by decide),
    ((peek_nextLexeme_spec ⟨["1"], 1, [], node.nil, node.nil⟩ (by decide)).2
      (by decide)).1⟩

end Expr
